import Mathlib

/- Verification of the string, command and analysis utilities of the
   codespec VS Code extension.  JavaScript strings are modelled as
   `List Char` wherever character-level reasoning is needed, and as
   `String` where the text is opaque to the verified property.  Each
   definition is translated from the TypeScript source file named in
   its doc comment. -/

/-- The single-quote character `'`, written numerically. -/
def squote : Char := Char.ofNat 39

/-- The double-quote character `"`, written numerically. -/
def dquote : Char := Char.ofNat 34

/-- The backquote character, written numerically. -/
def btick : Char := Char.ofNat 96

/-- `occurs pat s` is true when `pat` appears as a contiguous substring of
`s`; this models JavaScript `String.prototype.includes` and the matching of
a regex made only of literal characters. -/
def occurs (pat : List Char) : List Char → Bool
  | [] => pat.isEmpty
  | c :: s => pat.isPrefixOf (c :: s) || occurs pat s

theorem isPrefixOf_iff_ex (pat s : List Char) :
    pat.isPrefixOf s = true ↔ ∃ v, s = pat ++ v := by
  induction pat generalizing s with
  | nil => simp [List.isPrefixOf]
  | cons a as ih =>
    cases s with
    | nil => simp [List.isPrefixOf]
    | cons b bs =>
      simp only [List.isPrefixOf, Bool.and_eq_true, beq_iff_eq, ih,
        List.cons_append, List.cons.injEq]
      constructor
      · rintro ⟨rfl, v, rfl⟩
        exact ⟨v, rfl, rfl⟩
      · rintro ⟨v, h1, h2⟩
        exact ⟨h1.symm, v, h2⟩

theorem occurs_iff (pat s : List Char) :
    occurs pat s = true ↔ ∃ u v, s = u ++ pat ++ v := by
  induction s with
  | nil =>
    simp only [occurs, List.isEmpty_iff]
    constructor
    · rintro rfl
      exact ⟨[], [], rfl⟩
    · rintro ⟨u, v, h⟩
      rcases List.append_eq_nil.mp h.symm with ⟨h1, _⟩
      exact (List.append_eq_nil.mp h1).2
  | cons c s ih =>
    simp only [occurs, Bool.or_eq_true, ih, isPrefixOf_iff_ex]
    constructor
    · rintro (⟨v, h⟩ | ⟨u, v, h⟩)
      · exact ⟨[], v, by simpa using h⟩
      · exact ⟨c :: u, v, by simp [h]⟩
    · rintro ⟨u, v, h⟩
      cases u with
      | nil => exact Or.inl ⟨v, by simpa using h⟩
      | cons d u' =>
        refine Or.inr ⟨u', v, ?_⟩
        have h' : c :: s = d :: (u' ++ pat ++ v) := by simpa using h
        exact (List.cons.injEq _ _ _ _ ▸ h').2

theorem occurs_eq_false_iff (pat s : List Char) :
    occurs pat s = false ↔ ¬ ∃ u v, s = u ++ pat ++ v := by
  rw [← occurs_iff]
  cases h : occurs pat s <;> simp [h]

/-- A substring of a suffix piece occurs in the whole list. -/
theorem occurs_of_append_right (pat a b : List Char) (h : occurs pat b = true) :
    occurs pat (a ++ b) = true := by
  rcases (occurs_iff pat b).mp h with ⟨u, v, rfl⟩
  exact (occurs_iff pat _).mpr ⟨a ++ u, v, by simp⟩

theorem occurs_of_append_left (pat a b : List Char) (h : occurs pat a = true) :
    occurs pat (a ++ b) = true := by
  rcases (occurs_iff pat a).mp h with ⟨u, v, rfl⟩
  exact (occurs_iff pat _).mpr ⟨u, v ++ b, by simp⟩

/-- Decomposition of an occurrence in an appended list: the pattern lies in
the left part, in the right part, or straddles the boundary. -/
theorem occurs_append_split (pat a b : List Char)
    (h : occurs pat (a ++ b) = true) :
    occurs pat a = true ∨ occurs pat b = true ∨
      ∃ p q, pat = p ++ q ∧ p ≠ [] ∧ q ≠ [] ∧
        (∃ a', a = a' ++ p) ∧ (∃ b', b = q ++ b') := by
  rcases (occurs_iff pat (a ++ b)).mp h with ⟨u, v, hv⟩
  rw [show u ++ pat ++ v = u ++ (pat ++ v) by simp] at hv
  rcases List.append_eq_append_iff.mp hv with ⟨a', _, hb⟩ | ⟨u', ha, hw⟩
  · exact Or.inr (Or.inl ((occurs_iff pat b).mpr ⟨a', v, by simp [hb]⟩))
  · rcases List.append_eq_append_iff.mp hw with ⟨p', hu', _⟩ | ⟨q, hpat, hb⟩
    · exact Or.inl ((occurs_iff pat a).mpr ⟨u, p', by simp [ha, hu']⟩)
    · cases hu'nil : u' with
      | nil =>
        refine Or.inr (Or.inl ((occurs_iff pat b).mpr ⟨[], v, ?_⟩))
        rw [hu'nil] at hpat
        simp only [List.nil_append] at hpat
        rw [hb, ← hpat]
        simp
      | cons x xs =>
        by_cases hqnil : q = []
        · refine Or.inl ((occurs_iff pat a).mpr ⟨u, [], ?_⟩)
          rw [hqnil] at hpat
          simp only [List.append_nil] at hpat
          rw [ha, ← hpat]
          simp
        · refine Or.inr (Or.inr ⟨u', q, hpat, by simp [hu'nil], hqnil,
            ⟨u, ha⟩, ⟨v, hb⟩⟩)

/-- If a nonempty list is a suffix of `a' ++ [d]`, then it contains `d`. -/
theorem mem_of_suffix_concat (y x a' : List Char) (d : Char)
    (hy : y ≠ []) (h : x ++ y = a' ++ [d]) : d ∈ y := by
  rcases List.eq_nil_or_concat y with rfl | ⟨y', e, rfl⟩
  · exact absurd rfl hy
  · have h2 : (x ++ y') ++ [e] = a' ++ [d] := by
      rw [← h]
      simp [List.concat_eq_append]
    have h3 : [e] = [d] := (List.append_inj' h2 (by simp)).2
    have : e = d := by simpa using h3
    subst this
    simp [List.concat_eq_append]

/-- No occurrence of `pat` in `a ++ b` when `pat` occurs in neither part,
`a` ends with a character that `pat` does not contain. -/
theorem occurs_append_false_left (pat a b : List Char) (d : Char)
    (hd : a.getLast? = some d) (hmem : d ∉ pat)
    (h1 : occurs pat a = false) (h2 : occurs pat b = false) :
    occurs pat (a ++ b) = false := by
  cases hall : occurs pat (a ++ b) with
  | false => rfl
  | true =>
    exfalso
    rcases occurs_append_split pat a b hall with h | h | ⟨p, q, hpq, hp, hq, ⟨a', ha⟩, _⟩
    · rw [h1] at h; exact Bool.false_ne_true h
    · rw [h2] at h; exact Bool.false_ne_true h
    · have hconc : a.dropLast ++ [d] = a :=
        List.dropLast_append_getLast? d (Option.mem_def.mpr hd)
      have hmem2 : d ∈ p :=
        mem_of_suffix_concat p a' a.dropLast d hp (ha.symm.trans hconc.symm)
      exact hmem (hpq ▸ List.mem_append_left q hmem2)

/-- No occurrence of `pat` in `a ++ b` when `pat` occurs in neither part and
`b` starts with a character that `pat` does not contain. -/
theorem occurs_append_false_right (pat a b : List Char) (d : Char)
    (hd : b.head? = some d) (hmem : d ∉ pat)
    (h1 : occurs pat a = false) (h2 : occurs pat b = false) :
    occurs pat (a ++ b) = false := by
  cases hall : occurs pat (a ++ b) with
  | false => rfl
  | true =>
    exfalso
    rcases occurs_append_split pat a b hall with h | h | ⟨p, q, hpq, hp, hq, _, ⟨b', hb⟩⟩
    · rw [h1] at h; exact Bool.false_ne_true h
    · rw [h2] at h; exact Bool.false_ne_true h
    · cases q with
      | nil => exact hq rfl
      | cons e q' =>
        have he : e = d := by
          rw [hb] at hd
          simpa using hd
        subst he
        exact hmem (hpq ▸ List.mem_append_right p (by simp))

/-- The last element of an appended list is that of its (nonempty) right part. -/
theorem getLast?_append_some (x y : List Char) (d : Char)
    (h : y.getLast? = some d) : (x ++ y).getLast? = some d := by
  induction x with
  | nil => simpa using h
  | cons c x ih =>
    cases hx : x ++ y with
    | nil =>
      rcases List.append_eq_nil.mp hx with ⟨_, rfl⟩
      simp at h
    | cons e t =>
      rw [List.cons_append, hx, List.getLast?_cons_cons, ← hx, ih]

/-- The head of an appended list is that of its (nonempty) left part. -/
theorem head?_append_some (x y : List Char) (d : Char)
    (h : x.head? = some d) : (x ++ y).head? = some d := by
  cases x with
  | nil => simp at h
  | cons c t => simpa using h

/-- ECMAScript GetSubstitution for a string-pattern `String.prototype.replace`:
the replacement text is scanned for `$` patterns, expanding a doubled dollar to
a dollar sign, dollar-ampersand to the matched text, dollar-backquote to the
part of the subject before the match, and dollar-quote to the part after the
match; with a string pattern there are no capture groups, so every other
dollar sequence stays literal. -/
def getSubstitution (matched pre post : List Char) : List Char → List Char
  | [] => []
  | [c] => [c]
  | c :: d :: r =>
    if c = '$' then
      if d = '$' then '$' :: getSubstitution matched pre post r
      else if d = '&' then matched ++ getSubstitution matched pre post r
      else if d = btick then pre ++ getSubstitution matched pre post r
      else if d = squote then post ++ getSubstitution matched pre post r
      else '$' :: getSubstitution matched pre post (d :: r)
    else c :: getSubstitution matched pre post (d :: r)

/-- The two-character dollar sequences that GetSubstitution expands. -/
def dollarPatterns : List (List Char) :=
  [['$', '$'], ['$', '&'], ['$', btick], ['$', squote]]

/-- A replacement value free of every GetSubstitution pattern. -/
def noSubstPatterns (s : List Char) : Bool :=
  dollarPatterns.all (fun p => !(occurs p s))

theorem noSubstPatterns_tail (c : Char) (s : List Char)
    (h : noSubstPatterns (c :: s) = true) : noSubstPatterns s = true := by
  simp only [noSubstPatterns, List.all_eq_true] at h ⊢
  intro p hp
  have h2 := h p hp
  simp only [occurs, Bool.not_eq_true', Bool.or_eq_false_iff] at h2
  simp [h2.2]

theorem noSubst_head (d : Char) (r : List Char)
    (h : noSubstPatterns ('$' :: d :: r) = true) :
    d ≠ '$' ∧ d ≠ '&' ∧ d ≠ btick ∧ d ≠ squote := by
  have hk : ∀ p ∈ dollarPatterns, occurs p ('$' :: d :: r) = false := by
    intro p hp
    have h2 := (List.all_eq_true.mp h) p hp
    simpa using h2
  refine ⟨?_, ?_, ?_, ?_⟩ <;> rintro rfl
  · have h1 := hk ['$', '$'] (by simp [dollarPatterns])
    rw [occurs, show List.isPrefixOf ['$', '$'] ('$' :: '$' :: r) = true by
      simp [List.isPrefixOf], Bool.true_or] at h1
    exact Bool.noConfusion h1
  · have h1 := hk ['$', '&'] (by simp [dollarPatterns])
    rw [occurs, show List.isPrefixOf ['$', '&'] ('$' :: '&' :: r) = true by
      simp [List.isPrefixOf], Bool.true_or] at h1
    exact Bool.noConfusion h1
  · have h1 := hk ['$', btick] (by simp [dollarPatterns])
    rw [occurs, show List.isPrefixOf ['$', btick] ('$' :: btick :: r) = true by
      simp [List.isPrefixOf], Bool.true_or] at h1
    exact Bool.noConfusion h1
  · have h1 := hk ['$', squote] (by simp [dollarPatterns])
    rw [occurs, show List.isPrefixOf ['$', squote] ('$' :: squote :: r) = true by
      simp [List.isPrefixOf], Bool.true_or] at h1
    exact Bool.noConfusion h1

/-- On a replacement free of dollar patterns, GetSubstitution is the
identity: the replacement is inserted verbatim. -/
theorem getSubstitution_id (m pre post : List Char) :
    ∀ (rep : List Char), noSubstPatterns rep = true →
      getSubstitution m pre post rep = rep := by
  intro rep
  induction rep with
  | nil => intro _; rfl
  | cons c r ih =>
    intro h
    cases r with
    | nil => rfl
    | cons d r2 =>
      by_cases hc : c = '$'
      · subst hc
        obtain ⟨h1, h2, h3, h4⟩ := noSubst_head d r2 h
        simp only [getSubstitution, if_true]
        rw [if_neg h1, if_neg h2, if_neg h3, if_neg h4,
          ih (noSubstPatterns_tail _ _ h)]
      · simp only [getSubstitution]
        rw [if_neg hc, ih (noSubstPatterns_tail _ _ h)]

/-- GetSubstitution on the bare dollar-ampersand replacement re-inserts the
matched text. -/
theorem getSubstitution_amp (m pre post : List Char) :
    getSubstitution m pre post ['$', '&'] = m ++ [] := rfl

/-- Model of JavaScript `String.prototype.replace` with a plain-string
pattern: the first occurrence of `pat` is replaced by the GetSubstitution
expansion of `rep`, where `pre` accumulates the part of the subject already
scanned (the text before the match). -/
def replaceFirstFrom (pat rep pre : List Char) : List Char → List Char
  | [] => if pat.isPrefixOf [] then getSubstitution pat pre [] rep ++ [] else []
  | c :: s =>
    if pat.isPrefixOf (c :: s) then
      getSubstitution pat pre ((c :: s).drop pat.length) rep ++
        (c :: s).drop pat.length
    else c :: replaceFirstFrom pat rep (pre ++ [c]) s

def replaceFirst (pat rep s : List Char) : List Char :=
  replaceFirstFrom pat rep [] s

theorem replaceFirstFrom_of_isPrefixOf (pat rep pre s : List Char)
    (h : pat.isPrefixOf s = true) :
    replaceFirstFrom pat rep pre s =
      getSubstitution pat pre (s.drop pat.length) rep ++ s.drop pat.length := by
  cases s with
  | nil => simp [replaceFirstFrom, h]
  | cons c t => simp [replaceFirstFrom, h]

theorem replaceFirstFrom_no_occ (pat rep : List Char) :
    ∀ (s pre : List Char), occurs pat s = false →
      replaceFirstFrom pat rep pre s = s := by
  intro s
  induction s with
  | nil =>
    intro pre h
    have hne : pat.isPrefixOf [] = false := by
      cases pat with
      | nil => simp [occurs] at h
      | cons a t => simp [List.isPrefixOf]
    simp [replaceFirstFrom, hne]
  | cons c s ih =>
    intro pre h
    have h2 := h
    simp only [occurs, Bool.or_eq_false_iff] at h2
    rw [replaceFirstFrom, if_neg (by simp [h2.1]), ih _ h2.2]

/-- `replace` leaves a string without the pattern unchanged. -/
theorem replaceFirst_no_occ (pat rep s : List Char)
    (h : occurs pat s = false) : replaceFirst pat rep s = s :=
  replaceFirstFrom_no_occ pat rep s [] h

theorem replaceFirstFrom_append_gen (pat rep b : List Char) :
    ∀ (a pre : List Char),
      (∀ y, y ≠ [] → (∃ x, a = x ++ y) →
        pat.isPrefixOf (y ++ (pat ++ b)) = false) →
      replaceFirstFrom pat rep pre (a ++ (pat ++ b)) =
        a ++ (getSubstitution pat (pre ++ a) b rep ++ b) := by
  intro a
  induction a with
  | nil =>
    intro pre _
    have hp : pat.isPrefixOf (pat ++ b) = true :=
      (isPrefixOf_iff_ex pat (pat ++ b)).mpr ⟨b, rfl⟩
    rw [List.nil_append, replaceFirstFrom_of_isPrefixOf pat rep pre _ hp,
      List.drop_left, List.append_nil, List.nil_append]
  | cons c a1 ih =>
    intro pre hno
    have hcons : (c :: a1) ++ (pat ++ b) = c :: (a1 ++ (pat ++ b)) := by simp
    rw [hcons, replaceFirstFrom,
      if_neg (by
        have := hno (c :: a1) (by simp) ⟨[], by simp⟩
        rw [← hcons]
        simp only [this]
        exact Bool.false_ne_true),
      ih (pre ++ [c]) (fun y hy ⟨x, hxy⟩ => hno y hy ⟨c :: x, by simp [hxy]⟩)]
    rw [show pre ++ [c] ++ a1 = pre ++ (c :: a1) by simp]
    simp

theorem replaceFirst_append_gen (pat rep b a : List Char)
    (hno : ∀ y, y ≠ [] → (∃ x, a = x ++ y) →
      pat.isPrefixOf (y ++ (pat ++ b)) = false) :
    replaceFirst pat rep (a ++ (pat ++ b)) =
      a ++ (getSubstitution pat a b rep ++ b) := by
  have h := replaceFirstFrom_append_gen pat rep b a [] hno
  rwa [List.nil_append] at h

/-- Substituting the head occurrence: if `pat` does not occur in `a` and the
last character of `a` does not belong to the pattern, then `replace` on
`a ++ pat ++ b` rewrites exactly the explicit occurrence, inserting the
GetSubstitution expansion of the replacement. -/
theorem replaceFirst_append (pat rep a b : List Char) (d : Char)
    (hfree : occurs pat a = false) (hd : a.getLast? = some d)
    (hmem : d ∉ pat) :
    replaceFirst pat rep (a ++ (pat ++ b)) =
      a ++ (getSubstitution pat a b rep ++ b) := by
  apply replaceFirst_append_gen
  rintro y hy ⟨x, hxy⟩
  cases hp : pat.isPrefixOf (y ++ (pat ++ b)) with
  | false => rfl
  | true =>
    exfalso
    rcases (isPrefixOf_iff_ex _ _).mp hp with ⟨v, hv⟩
    rcases List.append_eq_append_iff.mp hv.symm with ⟨w, hyw, _⟩ | ⟨w, hpw, _⟩
    · -- y = pat ++ w : pat occurs inside a
      have : occurs pat a = true :=
        (occurs_iff pat a).mpr ⟨x, w, by rw [hxy, hyw]; simp⟩
      rw [hfree] at this
      exact Bool.false_ne_true this
    · -- pat = y ++ w : the final character of a lies in pat
      have hconc : a.dropLast ++ [d] = a :=
        List.dropLast_append_getLast? d (Option.mem_def.mpr hd)
      have hdm : d ∈ y :=
        mem_of_suffix_concat y x a.dropLast d hy (hxy.symm.trans hconc.symm)
      exact hmem (hpw ▸ List.mem_append_left w hdm)

/-- Decomposition of `replace` at the leftmost occurrence: the subject splits
as `u ++ pat ++ v` with the pattern absent from `u`, and the result inserts
the GetSubstitution expansion between `u` and `v`. -/
theorem replaceFirstFrom_decomp (pat rep : List Char) (hpat : pat ≠ []) :
    ∀ (s pre : List Char), occurs pat s = true →
      ∃ u v, s = u ++ (pat ++ v) ∧ occurs pat u = false ∧
        replaceFirstFrom pat rep pre s =
          u ++ (getSubstitution pat (pre ++ u) v rep ++ v) := by
  intro s
  induction s with
  | nil =>
    intro pre h
    simp only [occurs, List.isEmpty_iff] at h
    exact absurd h hpat
  | cons c s ih =>
    intro pre h
    by_cases hp : pat.isPrefixOf (c :: s) = true
    · obtain ⟨v, hv⟩ := (isPrefixOf_iff_ex _ _).mp hp
      refine ⟨[], (c :: s).drop pat.length, ?_, ?_, ?_⟩
      · rw [List.nil_append, hv, List.drop_left]
      · cases pat with
        | nil => exact absurd rfl hpat
        | cons a t => rfl
      · rw [replaceFirstFrom_of_isPrefixOf pat rep pre _ hp, List.append_nil,
          List.nil_append]
    · have hp2 : pat.isPrefixOf (c :: s) = false := by
        cases hb : pat.isPrefixOf (c :: s) with
        | false => rfl
        | true => exact absurd hb hp
      have hocc : occurs pat s = true := by
        have h2 := h
        simp only [occurs, Bool.or_eq_true] at h2
        rcases h2 with h2 | h2
        · exact absurd h2 hp
        · exact h2
      obtain ⟨u, v, hs, hu, hres⟩ := ih (pre ++ [c]) hocc
      refine ⟨c :: u, v, by rw [hs]; rfl, ?_, ?_⟩
      · have hpcu : pat.isPrefixOf (c :: u) = false := by
          cases hpc : pat.isPrefixOf (c :: u) with
          | false => rfl
          | true =>
            exfalso
            obtain ⟨w, hw⟩ := (isPrefixOf_iff_ex _ _).mp hpc
            apply hp
            apply (isPrefixOf_iff_ex _ _).mpr
            refine ⟨w ++ (pat ++ v), ?_⟩
            rw [show c :: s = (c :: u) ++ (pat ++ v) by rw [hs]; rfl, hw]
            simp
        simp only [occurs, hpcu, hu, Bool.or_self]
      · rw [replaceFirstFrom, if_neg (by simp [hp2]), hres,
          show pre ++ [c] ++ u = pre ++ (c :: u) by simp]
        rfl

theorem replaceFirst_decomp (pat rep s : List Char) (hpat : pat ≠ [])
    (h : occurs pat s = true) :
    ∃ u v, s = u ++ (pat ++ v) ∧ occurs pat u = false ∧
      replaceFirst pat rep s = u ++ (getSubstitution pat u v rep ++ v) := by
  obtain ⟨u, v, hs, hu, hres⟩ := replaceFirstFrom_decomp pat rep hpat s [] h
  rw [List.nil_append] at hres
  exact ⟨u, v, hs, hu, hres⟩

/-- Number of (possibly overlapping) occurrence positions of `pat` in `s`. -/
def countOcc (pat : List Char) : List Char → Nat
  | [] => if pat.isEmpty then 1 else 0
  | c :: s => (if pat.isPrefixOf (c :: s) then 1 else 0) + countOcc pat s

theorem countOcc_pos_iff (pat s : List Char) :
    0 < countOcc pat s ↔ occurs pat s = true := by
  induction s with
  | nil =>
    simp only [countOcc, occurs]
    cases h : pat.isEmpty <;> simp [h]
  | cons c s ih =>
    simp only [countOcc, occurs, Bool.or_eq_true, ← ih]
    cases h : pat.isPrefixOf (c :: s) <;> simp [h]

theorem countOcc_eq_zero (pat s : List Char) (h : occurs pat s = false) :
    countOcc pat s = 0 := by
  by_contra hne
  have hpos : 0 < countOcc pat s := Nat.pos_of_ne_zero hne
  rw [(countOcc_pos_iff pat s).mp hpos] at h
  exact Bool.noConfusion h

/-- Occurrence counting is superadditive over concatenation: every match
inside a part is a match of the whole. -/
theorem countOcc_append_ge (pat : List Char) (hpat : pat ≠ []) :
    ∀ (a b : List Char),
      countOcc pat a + countOcc pat b ≤ countOcc pat (a ++ b) := by
  intro a b
  induction a with
  | nil =>
    have h0 : countOcc pat [] = 0 := by
      cases pat with
      | nil => exact absurd rfl hpat
      | cons c t => rfl
    rw [List.nil_append, h0, Nat.zero_add]
  | cons c a1 ih =>
    rw [show (c :: a1) ++ b = c :: (a1 ++ b) from rfl]
    rw [show countOcc pat (c :: (a1 ++ b)) =
      (if pat.isPrefixOf (c :: (a1 ++ b)) then 1 else 0) +
        countOcc pat (a1 ++ b) from rfl]
    rw [show countOcc pat (c :: a1) =
      (if pat.isPrefixOf (c :: a1) then 1 else 0) + countOcc pat a1 from rfl]
    have hind : (if pat.isPrefixOf (c :: a1) then 1 else 0) ≤
        (if pat.isPrefixOf (c :: (a1 ++ b)) then 1 else 0) := by
      by_cases hp : pat.isPrefixOf (c :: a1) = true
      · obtain ⟨w, hw⟩ := (isPrefixOf_iff_ex _ _).mp hp
        have h2 : pat.isPrefixOf (c :: (a1 ++ b)) = true := by
          apply (isPrefixOf_iff_ex _ _).mpr
          refine ⟨w ++ b, ?_⟩
          rw [show c :: (a1 ++ b) = (c :: a1) ++ b from rfl, hw]
          simp
        simp [hp, h2]
      · simp [hp]
    omega

/-- Occurrence counting is subadditive over a concatenation across whose
boundary the pattern cannot straddle. -/
theorem countOcc_append_le (pat : List Char) :
    ∀ (a b : List Char),
      (∀ x y, pat = x ++ y → x ≠ [] → y ≠ [] →
        (∃ a0, a = a0 ++ x) → (∃ b0, b = y ++ b0) → False) →
      countOcc pat (a ++ b) ≤ countOcc pat a + countOcc pat b := by
  intro a
  induction a with
  | nil =>
    intro b _
    rw [List.nil_append]
    exact Nat.le_add_left _ _
  | cons c a1 ih =>
    intro b hH
    rw [show (c :: a1) ++ b = c :: (a1 ++ b) from rfl]
    rw [show countOcc pat (c :: (a1 ++ b)) =
      (if pat.isPrefixOf (c :: (a1 ++ b)) then 1 else 0) +
        countOcc pat (a1 ++ b) from rfl]
    rw [show countOcc pat (c :: a1) =
      (if pat.isPrefixOf (c :: a1) then 1 else 0) + countOcc pat a1 from rfl]
    have hind : (if pat.isPrefixOf (c :: (a1 ++ b)) then 1 else 0) ≤
        (if pat.isPrefixOf (c :: a1) then 1 else 0) := by
      by_cases hp : pat.isPrefixOf (c :: (a1 ++ b)) = true
      · have hpa : pat.isPrefixOf (c :: a1) = true := by
          obtain ⟨w, hw⟩ := (isPrefixOf_iff_ex _ _).mp hp
          have hw2 : (c :: a1) ++ b = pat ++ w := hw
          rcases List.append_eq_append_iff.mp hw2 with ⟨a2, hpa2, hb2⟩ | ⟨c2, hca, _⟩
          · cases ha2 : a2 with
            | nil =>
              rw [ha2, List.append_nil] at hpa2
              apply (isPrefixOf_iff_ex _ _).mpr
              exact ⟨[], by rw [← hpa2]; simp⟩
            | cons e a3 =>
              exfalso
              refine hH (c :: a1) a2 hpa2 (by simp) (by rw [ha2]; simp)
                ⟨[], by simp⟩ ⟨w, hb2⟩
          · exact (isPrefixOf_iff_ex _ _).mpr ⟨c2, hca⟩
        simp [hp, hpa]
      · simp [hp]
    have hih := ih b (fun x y hxy hx hy hax hb0 => by
      obtain ⟨a0, ha0⟩ := hax
      exact hH x y hxy hx hy ⟨c :: a0, by rw [ha0]; rfl⟩ hb0)
    omega

/-- The whitespace class of JavaScript `String.prototype.trim`. -/
def jsWhitespace (c : Char) : Bool :=
  c.toNat ∈ [9, 10, 11, 12, 13, 32, 160, 5760, 8192, 8193, 8194, 8195, 8196,
    8197, 8198, 8199, 8200, 8201, 8202, 8232, 8233, 8239, 8287, 12288, 65279]

/-- Model of JavaScript `String.prototype.trim`. -/
def jsTrim (s : List Char) : List Char :=
  ((s.dropWhile jsWhitespace).reverse.dropWhile jsWhitespace).reverse

/-- Trimming only removes characters at the two ends, so any substring of
the trimmed string is a substring of the original. -/
theorem occurs_of_jsTrim (pat s : List Char)
    (h : occurs pat (jsTrim s) = true) : occurs pat s = true := by
  have h1 : s = s.takeWhile jsWhitespace ++ s.dropWhile jsWhitespace :=
    (List.takeWhile_append_dropWhile _ _).symm
  have h2 : s.dropWhile jsWhitespace =
      jsTrim s ++ ((s.dropWhile jsWhitespace).reverse.takeWhile jsWhitespace).reverse := by
    conv_lhs => rw [← List.reverse_reverse (s.dropWhile jsWhitespace)]
    conv_lhs =>
      rw [← List.takeWhile_append_dropWhile jsWhitespace
        (s.dropWhile jsWhitespace).reverse]
    rw [List.reverse_append]
    rfl
  conv_lhs => rw [h1, h2]
  exact occurs_of_append_right _ _ _ (occurs_of_append_left _ _ _ h)

/-- A string is its trimmed core with a whitespace run on each side. -/
theorem jsTrim_decomp (x : List Char) :
    ∃ a b, x = a ++ (jsTrim x ++ b) ∧ (∀ c ∈ a, jsWhitespace c = true) ∧
      (∀ c ∈ b, jsWhitespace c = true) := by
  refine ⟨x.takeWhile jsWhitespace,
    ((x.dropWhile jsWhitespace).reverse.takeWhile jsWhitespace).reverse,
    ?_, ?_, ?_⟩
  · have h1 : x = x.takeWhile jsWhitespace ++ x.dropWhile jsWhitespace :=
      (List.takeWhile_append_dropWhile _ _).symm
    have h2 : x.dropWhile jsWhitespace =
        jsTrim x ++
          ((x.dropWhile jsWhitespace).reverse.takeWhile jsWhitespace).reverse := by
      conv_lhs => rw [← List.reverse_reverse (x.dropWhile jsWhitespace)]
      conv_lhs =>
        rw [← List.takeWhile_append_dropWhile jsWhitespace
          (x.dropWhile jsWhitespace).reverse]
      rw [List.reverse_append]
      rfl
    conv_lhs => rw [h1, h2]
  · intro c hc
    exact List.mem_takeWhile_imp hc
  · intro c hc
    rw [List.mem_reverse] at hc
    exact List.mem_takeWhile_imp hc

/- ### CommandBuilder.escapeUnixArgument (src/utils/commandBuilder.ts, 196-206) -/

/-- commandBuilder.ts 198-200: the guard of `escapeUnixArgument` checks
`arg.includes` for space, single quote, double quote, newline, carriage
return and backslash, in that order. -/
def needsUnixEscape (arg : List Char) : Bool :=
  arg.contains ' ' || arg.contains squote || arg.contains dquote ||
    arg.contains '\n' || arg.contains '\r' || arg.contains '\\'

/-- The close-quote/escaped-quote/reopen-quote sequence that replaces each
embedded single quote (commandBuilder.ts 204). -/
def sqEscapeBlock : List Char := [squote, dquote, squote, dquote, squote]

/-- `arg.replace(/'/g, "'\"'\"'")`: every single quote becomes the block. -/
def escQuoteAll : List Char → List Char
  | [] => []
  | c :: s => (if c = squote then sqEscapeBlock else [c]) ++ escQuoteAll s

/-- CommandBuilder.escapeUnixArgument: return the argument verbatim when no
trigger character is present, otherwise escape quotes and wrap in single
quotes. -/
def escapeUnixArgument (arg : List Char) : List Char :=
  if needsUnixEscape arg then squote :: (escQuoteAll arg ++ [squote]) else arg

/-- The POSIX single-quote unescaping convention stated by the spec: strip
the outer single quotes and interpret each close-quote/escaped-quote/
reopen-quote block as one literal single quote, scanning left to right. -/
def decodeQuotes : List Char → List Char
  | [] => []
  | c :: s =>
    if sqEscapeBlock.isPrefixOf (c :: s) then squote :: decodeQuotes (s.drop 4)
    else c :: decodeQuotes s
termination_by s => s.length
decreasing_by
  all_goals simp only [List.length_cons, List.length_drop]
  all_goals omega

/-- Spec-side unescaping: requires the outer single quotes, removes them and
decodes the quote blocks. -/
def posixUnescape (s : List Char) : Option (List Char) :=
  match s with
  | [] => none
  | c :: rest =>
    if c = squote ∧ rest.getLast? = some squote then
      some (decodeQuotes rest.dropLast)
    else none

theorem decode_escQuoteAll (arg : List Char) :
    decodeQuotes (escQuoteAll arg) = arg := by
  induction arg with
  | nil => simp [escQuoteAll, decodeQuotes]
  | cons c s ih =>
    by_cases hc : c = squote
    · subst hc
      have hform : escQuoteAll (squote :: s) =
          squote :: ([dquote, squote, dquote, squote] ++ escQuoteAll s) := by
        simp [escQuoteAll, sqEscapeBlock]
      rw [hform]
      rw [show decodeQuotes (squote :: ([dquote, squote, dquote, squote] ++ escQuoteAll s)) =
          if sqEscapeBlock.isPrefixOf (squote :: ([dquote, squote, dquote, squote] ++ escQuoteAll s)) then
            squote :: decodeQuotes (([dquote, squote, dquote, squote] ++ escQuoteAll s).drop 4)
          else squote :: decodeQuotes ([dquote, squote, dquote, squote] ++ escQuoteAll s)
        from decodeQuotes.eq_2 _ _]
      rw [if_pos ((isPrefixOf_iff_ex _ _).mpr ⟨escQuoteAll s, by
        simp [sqEscapeBlock]⟩)]
      have hdrop : ([dquote, squote, dquote, squote] ++ escQuoteAll s).drop 4 =
          escQuoteAll s := rfl
      rw [hdrop, ih]
    · have hform : escQuoteAll (c :: s) = c :: escQuoteAll s := by
        simp [escQuoteAll, hc]
      rw [hform]
      rw [show decodeQuotes (c :: escQuoteAll s) =
          if sqEscapeBlock.isPrefixOf (c :: escQuoteAll s) then
            squote :: decodeQuotes ((escQuoteAll s).drop 4)
          else c :: decodeQuotes (escQuoteAll s)
        from decodeQuotes.eq_2 _ _]
      rw [if_neg (by
        intro hp
        rcases (isPrefixOf_iff_ex _ _).mp hp with ⟨v, hv⟩
        have : c = squote := by
          have := congrArg List.head? hv
          simpa [sqEscapeBlock] using this
        exact hc this)]
      rw [ih]

theorem escQuoteAll_length_ge (arg : List Char) :
    arg.length ≤ (escQuoteAll arg).length := by
  induction arg with
  | nil => simp [escQuoteAll]
  | cons c s ih =>
    by_cases hc : c = squote <;>
      simp [escQuoteAll, hc, sqEscapeBlock] <;> omega

/-- The characters the amended claim calls shell-meaningful for the POSIX
escaper: space, single quote, double quote, backslash, newline and carriage
return. -/
def shellMeaningfulChars : List Char := [' ', squote, dquote, '\\', '\n', '\r']

/-- The shell-meaningful character list exactly as the claim words it:
space, quote (single and double), backslash, newline - without carriage
return. -/
def claimMeaningfulChars : List Char := [' ', squote, dquote, '\\', '\n']

theorem contains_iff_mem (l : List Char) (c : Char) :
    l.contains c = true ↔ c ∈ l := by
  induction l with
  | nil => simp
  | cons a t ih => simp [List.contains_cons, ih]

theorem needsUnixEscape_iff (arg : List Char) :
    needsUnixEscape arg = true ↔ ∃ c ∈ arg, c ∈ shellMeaningfulChars := by
  simp only [needsUnixEscape, Bool.or_eq_true, contains_iff_mem]
  constructor
  · rintro (((((h | h) | h) | h) | h) | h) <;>
      exact ⟨_, h, by simp [shellMeaningfulChars]⟩
  · rintro ⟨c, hc, hm⟩
    simp only [shellMeaningfulChars, List.mem_cons, List.not_mem_nil,
      or_false] at hm
    rcases hm with rfl | rfl | rfl | rfl | rfl | rfl <;> simp [hc]

/-- C1 (amended): escaping applies exactly when the argument contains one of
the shell-meaningful characters (carriage return included); an argument
without them is returned verbatim, and for an escaped argument the POSIX
unescaping convention recovers the original string exactly. -/
theorem escapeUnixArgument_roundtrip (arg : List Char) :
    ((∀ c ∈ arg, c ∉ shellMeaningfulChars) → escapeUnixArgument arg = arg)
  ∧ ((∃ c ∈ arg, c ∈ shellMeaningfulChars) →
      escapeUnixArgument arg ≠ arg ∧
      posixUnescape (escapeUnixArgument arg) = some arg) := by
  constructor
  · intro h
    have hn : needsUnixEscape arg = false := by
      cases hh : needsUnixEscape arg
      · rfl
      · rcases (needsUnixEscape_iff arg).mp hh with ⟨c, hc, hm⟩
        exact absurd hm (h c hc)
    simp [escapeUnixArgument, hn]
  · intro h
    have hn : needsUnixEscape arg = true := (needsUnixEscape_iff arg).mpr h
    have hesc : escapeUnixArgument arg = squote :: (escQuoteAll arg ++ [squote]) := by
      simp [escapeUnixArgument, hn]
    constructor
    · rw [hesc]
      intro heq
      have hlen := congrArg List.length heq
      simp only [List.length_cons, List.length_append, List.length_singleton] at hlen
      have := escQuoteAll_length_ge arg
      omega
    · rw [hesc]
      have hgl : (escQuoteAll arg ++ [squote]).getLast? = some squote :=
        List.getLast?_concat _
      simp [posixUnescape, hgl, List.dropLast_concat, decode_escQuoteAll]

/-- Witness for the round-trip theorem at the concrete argument `a '`. -/
theorem escapeUnixArgument_roundtrip_witness :
    posixUnescape (escapeUnixArgument ['a', ' ', squote]) = some ['a', ' ', squote] :=
  ((escapeUnixArgument_roundtrip ['a', ' ', squote]).2 (by decide)).2

/-- C1 counterexample: a carriage return is not among the claim's list of
shell-meaningful characters (space, quote, backslash, newline), yet
`escapeUnixArgument` does not return the argument verbatim. -/
theorem escapeUnixArgument_claim_cex :
    (∀ c ∈ ['\r'], c ∉ claimMeaningfulChars) ∧
    escapeUnixArgument ['\r'] ≠ ['\r'] := by
  decide

/- ### PromptContext and PromptBuilder.truncateContext
   (src/constants/prompts.ts, 191-198 and 246-267) -/

/-- The `PromptContext` interface: two required string fields and four
optional ones. -/
structure PromptContext where
  projectSummary : List Char
  featureContent : List Char
  implementationContext : Option (List Char)
  fileContent : Option (List Char)
  filePath : Option (List Char)
  importantFilesAnalysis : Option (List Char)
deriving DecidableEq

/-- One field cut of `truncateContext`: the JS guard
`field.length > maxLength / denom` compares against the exact rational
`maxLength / denom` (so `denom * length > maxLength`), while
`substring(0, maxLength / denom)` keeps `maxLength / denom` rounded down. -/
def truncateField (m denom : Nat) (marker s : List Char) : List Char :=
  if denom * s.length > m then s.take (m / denom) ++ marker else s

def contentTruncMarker : List Char := "\n\n[Content truncated for length...]".data

def summaryTruncMarker : List Char := "\n\n[Summary truncated for length...]".data

def fileTruncMarker : List Char := "\n\n[File content truncated for length...]".data

def analysisTruncMarker : List Char := "\n\n[Files analysis truncated for length...]".data

/-- PromptBuilder.truncateContext: featureContent, fileContent and
importantFilesAnalysis are cut to a third of the budget, projectSummary to a
sixth; implementationContext and filePath are untouched.  An absent (or
empty, by the `&&` guard) field is left unchanged, which coincides with the
length test for empty strings. -/
def truncateContext (ctx : PromptContext) (maxLength : Nat) : PromptContext :=
  { ctx with
    featureContent := truncateField maxLength 3 contentTruncMarker ctx.featureContent,
    projectSummary := truncateField maxLength 6 summaryTruncMarker ctx.projectSummary,
    fileContent := ctx.fileContent.map (truncateField maxLength 3 fileTruncMarker),
    importantFilesAnalysis :=
      ctx.importantFilesAnalysis.map (truncateField maxLength 3 analysisTruncMarker) }

theorem truncateField_idem (m denom : Nat) (marker s : List Char)
    (hden : 0 < denom) (hmk : marker ≠ []) :
    truncateField m denom marker (truncateField m denom marker s) =
      truncateField m denom marker s := by
  unfold truncateField
  by_cases h : denom * s.length > m
  · rw [if_pos h]
    have hlen : m / denom < s.length := by
      rw [Nat.div_lt_iff_lt_mul hden, Nat.mul_comm]
      omega
    have htake : (s.take (m / denom)).length = m / denom := by
      rw [List.length_take]
      omega
    have hdm := Nat.div_add_mod m denom
    have hmod := Nat.mod_lt m hden
    have hmk1 : 1 ≤ marker.length := by
      cases marker with
      | nil => exact absurd rfl hmk
      | cons a t => simp
    have hcond : denom * (s.take (m / denom) ++ marker).length > m := by
      rw [List.length_append, htake, Nat.mul_add]
      have h3 : denom ≤ denom * marker.length := by
        calc denom = denom * 1 := by omega
        _ ≤ denom * marker.length := Nat.mul_le_mul_left denom hmk1
      omega
    rw [if_pos hcond]
    congr 1
    rw [List.take_append_eq_append_take, htake]
    simp [List.take_take]
  · rw [if_neg h, if_neg h]

/-- C6: truncation is idempotent - truncating an already-truncated context a
second time with the same budget returns it unchanged, for every context and
every budget. -/
theorem truncateContext_idem (ctx : PromptContext) (m : Nat) :
    truncateContext (truncateContext ctx m) m = truncateContext ctx m := by
  cases ctx with
  | mk ps fc ic filec fp ifa =>
    simp only [truncateContext, PromptContext.mk.injEq]
    refine ⟨?_, ?_, trivial, ?_, trivial, ?_⟩
    · exact truncateField_idem m 6 summaryTruncMarker ps (by omega) (by decide)
    · exact truncateField_idem m 3 contentTruncMarker fc (by omega) (by decide)
    · cases filec with
      | none => rfl
      | some x =>
        show some (truncateField m 3 fileTruncMarker (truncateField m 3 fileTruncMarker x)) =
          some (truncateField m 3 fileTruncMarker x)
        rw [truncateField_idem m 3 fileTruncMarker x (by omega) (by decide)]
    · cases ifa with
      | none => rfl
      | some x =>
        show some (truncateField m 3 analysisTruncMarker (truncateField m 3 analysisTruncMarker x)) =
          some (truncateField m 3 analysisTruncMarker x)
        rw [truncateField_idem m 3 analysisTruncMarker x (by omega) (by decide)]

/- ### CLIExecutionService authentication-error override
   (src/services/cliExecutionService.ts, 164-202 and 304-332) -/

/-- ASCII model of JavaScript `toLowerCase` (the authentication phrases and
remediation checks are all ASCII). -/
def asciiToLower (c : Char) : Char :=
  if 'A' ≤ c ∧ c ≤ 'Z' then Char.ofNat (c.toNat + 32) else c

/-- The fixed authentication-failure phrase patterns of
`isAuthenticationError` (all the regexes are literal phrases). -/
def authErrorPatterns : List (List Char) :=
  ["not authenticated".data, "login required".data,
   "authentication failed".data, "unauthorized".data,
   "invalid credentials".data, "access denied".data,
   "permission denied".data, "no credentialed accounts".data]

/-- CLIExecutionService.isAuthenticationError: case-insensitive test of the
phrase patterns against stderr followed by stdout. -/
def isAuthenticationError (stderr stdout : List Char) : Bool :=
  authErrorPatterns.any (fun pat => occurs pat ((stderr ++ stdout).map asciiToLower))

def claudeAuthMessage : List Char :=
  "Claude Code authentication required. Please run: claude auth login".data

def gcloudAuthMessage : List Char :=
  "Google Cloud authentication required. Please run: gcloud auth login".data

def genericAuthMessage : List Char :=
  "Authentication required. Please authenticate with the CLI tool and try again.".data

/-- CLIExecutionService.getAuthenticationErrorMessage: tool-specific
remediation text chosen from the combined (case-sensitive) output. -/
def getAuthenticationErrorMessage (stderr stdout : List Char) : List Char :=
  if occurs "claude".data (stderr ++ stdout) || occurs "Claude".data (stderr ++ stdout) then
    claudeAuthMessage
  else if occurs "gcloud".data (stderr ++ stdout) || occurs "google".data (stderr ++ stdout) then
    gcloudAuthMessage
  else genericAuthMessage

/-- The result record of `executeDirectly` (models `CLIExecutionResult`). -/
structure CLIExecutionResult where
  success : Bool
  output : List Char
  error : Option (List Char)
  exitCode : Int
deriving DecidableEq

/-- The `close` handler of CLIExecutionService.executeDirectly: build the
result from the captured streams and the exit code (`code === 0`,
`stderr || undefined`, `code || 0`), then overwrite the error field with the
remediation message whenever the authentication check fires. -/
def closeHandlerResult (stdout stderr : List Char) (code : Option Int) : CLIExecutionResult :=
  let base : CLIExecutionResult :=
    { success := code == some 0,
      output := stdout,
      error := if stderr.isEmpty then none else some stderr,
      exitCode := match code with
        | some n => n
        | none => 0 }
  if isAuthenticationError stderr stdout then
    { base with error := some (getAuthenticationErrorMessage stderr stdout) }
  else base

/-- C2: whenever the combined output matches an authentication-failure
pattern, the returned error is exactly the remediation message - for every
exit code, and whatever stderr contained - and that message is one of the
three fixed texts (claude login, gcloud login, generic fallback). -/
theorem cliExecution_auth_override (stdout stderr : List Char) (code : Option Int)
    (h : isAuthenticationError stderr stdout = true) :
    (closeHandlerResult stdout stderr code).error =
      some (getAuthenticationErrorMessage stderr stdout) ∧
    (getAuthenticationErrorMessage stderr stdout = claudeAuthMessage ∨
     getAuthenticationErrorMessage stderr stdout = gcloudAuthMessage ∨
     getAuthenticationErrorMessage stderr stdout = genericAuthMessage) := by
  constructor
  · simp only [closeHandlerResult, h, if_true]
  · unfold getAuthenticationErrorMessage
    split
    · exact Or.inl rfl
    · split
      · exact Or.inr (Or.inl rfl)
      · exact Or.inr (Or.inr rfl)

/-- Witness: a successful exit code (0) still gets the claude remediation
message when stderr reports an authentication failure. -/
theorem cliExecution_auth_override_witness :
    isAuthenticationError "claude: not authenticated".data "ok".data = true ∧
    (closeHandlerResult "ok".data "claude: not authenticated".data (some 0)).error =
      some (getAuthenticationErrorMessage "claude: not authenticated".data "ok".data) :=
  ⟨by decide, (cliExecution_auth_override _ _ (some 0) (by decide)).1⟩

/- ### AgentManager.switchAgent (src/providers/featureTreeProvider.ts, 179-213) -/

/-- The CLIFeature enum (src/models/cliAgent.ts). -/
inductive CLIFeature
  | questionnaireGeneration
  | implementationPlanning
  | codeGeneration
  | fileAnalysis
deriving DecidableEq

/-- The CLIAgentInfo record (src/models/cliAgent.ts). -/
structure CLIAgentInfo where
  name : String
  displayName : String
  command : String
  version : String
  isAvailable : Bool
  isAuthenticated : Bool
  supportedFeatures : List CLIFeature
deriving DecidableEq

/-- The mutable state of the AgentManager singleton that `switchAgent`
reads and writes: the latest detection snapshot and the selection. -/
structure AgentManagerState where
  availableAgents : List CLIAgentInfo
  selectedAgent : Option CLIAgentInfo
deriving DecidableEq

/-- AgentManager.switchAgent: look the name up in the snapshot; fail on a
missing or unavailable agent; for an unauthenticated agent ask the user
(`dialogChoice` is the answer of `showWarningMessage`) and proceed only on
`Continue`; otherwise select the agent and report success. -/
def switchAgent (st : AgentManagerState) (agentName : String)
    (dialogChoice : Option String) : Bool × AgentManagerState :=
  match st.availableAgents.find? (fun a => a.name == agentName) with
  | none => (false, st)
  | some agent =>
    if agent.isAvailable = false then (false, st)
    else if agent.isAuthenticated = false ∧ dialogChoice ≠ some "Continue" then
      (false, st)
    else (true, { st with selectedAgent := some agent })

/-- C4: for a name absent from the snapshot, or whose snapshot entry is
unavailable, `switchAgent` reports failure and leaves the whole state (in
particular the selected agent) unchanged. -/
theorem switchAgent_fails_closed (st : AgentManagerState) (agentName : String)
    (choice : Option String)
    (h : st.availableAgents.find? (fun a => a.name == agentName) = none ∨
      ∃ a, st.availableAgents.find? (fun a => a.name == agentName) = some a ∧
        a.isAvailable = false) :
    switchAgent st agentName choice = (false, st) := by
  unfold switchAgent
  rcases h with h | ⟨a, ha, hav⟩
  · rw [h]
  · rw [ha]
    simp [hav]

/-- An unavailable agent entry for the switchAgent witness. -/
def switchAgentDemoAgent : CLIAgentInfo :=
  { name := "gemini-cli", displayName := "Gemini CLI", command := "gcloud",
    version := "Unknown", isAvailable := false, isAuthenticated := false,
    supportedFeatures := [] }

/-- A snapshot with one unavailable agent for the switchAgent witness. -/
def switchAgentDemoState : AgentManagerState :=
  { availableAgents := [switchAgentDemoAgent], selectedAgent := none }

/-- Witness: switching to the unavailable agent and to a missing name both
fail and preserve the state. -/
theorem switchAgent_fails_closed_witness :
    switchAgent switchAgentDemoState "gemini-cli" none = (false, switchAgentDemoState) ∧
    switchAgent switchAgentDemoState "claude-code" none = (false, switchAgentDemoState) :=
  ⟨switchAgent_fails_closed switchAgentDemoState "gemini-cli" none
      (Or.inr ⟨switchAgentDemoAgent, by decide, by decide⟩),
    switchAgent_fails_closed switchAgentDemoState "claude-code" none
      (Or.inl (by decide))⟩

/- ### CLIDetector.detectAllAvailableAgents
   (src/utils/cliDetector.ts, 15-81; src/models/cliAgent.ts) -/

/-- The CLIAgentConfig descriptor record (src/models/cliAgent.ts). -/
structure CLIAgentConfig where
  name : String
  displayName : String
  command : String
  versionFlag : String
  authCheckCommand : Option String
  supportedFeatures : List CLIFeature
deriving DecidableEq

def claudeCodeConfig : CLIAgentConfig :=
  { name := "claude-code", displayName := "Claude Code", command := "claude",
    versionFlag := "--version", authCheckCommand := some "auth status",
    supportedFeatures := [.questionnaireGeneration, .implementationPlanning,
      .codeGeneration, .fileAnalysis] }

def geminiCliConfig : CLIAgentConfig :=
  { name := "gemini-cli", displayName := "Gemini CLI", command := "gcloud",
    versionFlag := "--version", authCheckCommand := some "auth list",
    supportedFeatures := [.questionnaireGeneration, .implementationPlanning,
      .codeGeneration] }

/-- The SUPPORTED_AGENTS table (src/models/cliAgent.ts). -/
def SUPPORTED_AGENTS : List CLIAgentConfig := [claudeCodeConfig, geminiCliConfig]

/-- The observable behaviour of the subprocess probes for one tool:
`available` is the result of `checkCommand`, `version` the result of
`getVersion` when available (both catch their own exceptions), and
`authenticated` the result of `checkAuthentication`. -/
structure AgentProbe where
  available : Bool
  version : String
  authenticated : Bool

/-- A detection attempt either completes with probe results or throws. -/
inductive DetectOutcome
  | threw
  | probed (p : AgentProbe)

/-- CLIDetector.detectAgent (non-mock path), as a function of the probe
results of that one tool: version is `Unknown` and authentication false
unless the tool is available; authentication is checked only when the
descriptor has an authCheckCommand. -/
def detectAgent (p : AgentProbe) (config : CLIAgentConfig) : CLIAgentInfo :=
  { name := config.name, displayName := config.displayName,
    command := config.command,
    version := if p.available then p.version else "Unknown",
    isAvailable := p.available,
    isAuthenticated := p.available && config.authCheckCommand.isSome && p.authenticated,
    supportedFeatures := config.supportedFeatures }

/-- The catch branch of detectAllAvailableAgents: a detection that throws
becomes an unavailable, unauthenticated entry for the same descriptor. -/
def unavailableAgentInfo (config : CLIAgentConfig) : CLIAgentInfo :=
  { name := config.name, displayName := config.displayName,
    command := config.command, version := "Unknown",
    isAvailable := false, isAuthenticated := false,
    supportedFeatures := config.supportedFeatures }

/-- The loop of detectAllAvailableAgents; `env i` is the detection outcome
for the i-th descriptor. -/
def detectLoop (env : Nat → DetectOutcome) : Nat → List CLIAgentConfig → List CLIAgentInfo
  | _, [] => []
  | i, config :: rest =>
    (match env i with
      | .threw => unavailableAgentInfo config
      | .probed p => detectAgent p config) :: detectLoop env (i + 1) rest

/-- CLIDetector.detectAllAvailableAgents. -/
def detectAllAvailableAgents (env : Nat → DetectOutcome) : List CLIAgentInfo :=
  detectLoop env 0 SUPPORTED_AGENTS


/-- C3: for every detection environment the result has exactly one entry per
SUPPORTED_AGENTS descriptor, in order, preserving name, displayName, command
and supportedFeatures; a throwing detection yields an unavailable,
unauthenticated entry; and each entry depends only on its own tool's
outcome. -/
theorem detectAllAvailableAgents_complete (env : Nat → DetectOutcome) :
    (detectAllAvailableAgents env).length = SUPPORTED_AGENTS.length ∧
    ∀ i, i < SUPPORTED_AGENTS.length →
      ∃ e c, (detectAllAvailableAgents env).get? i = some e ∧
        SUPPORTED_AGENTS.get? i = some c ∧
        e.name = c.name ∧ e.displayName = c.displayName ∧
        e.command = c.command ∧ e.supportedFeatures = c.supportedFeatures ∧
        (env i = .threw → e.isAvailable = false ∧ e.isAuthenticated = false) ∧
        (∀ env2, env2 i = env i →
          (detectAllAvailableAgents env2).get? i = some e) := by
  refine ⟨rfl, ?_⟩
  intro i hi
  match i with
  | 0 =>
    refine ⟨(match env 0 with
      | .threw => unavailableAgentInfo claudeCodeConfig
      | .probed p => detectAgent p claudeCodeConfig), claudeCodeConfig,
      rfl, rfl, ?_, ?_, ?_, ?_, ?_, ?_⟩
    · cases env 0 <;> rfl
    · cases env 0 <;> rfl
    · cases env 0 <;> rfl
    · cases env 0 <;> rfl
    · intro h
      rw [h]
      exact ⟨rfl, rfl⟩
    · intro env2 h2
      exact congrArg (fun o => some (match o with
        | DetectOutcome.threw => unavailableAgentInfo claudeCodeConfig
        | DetectOutcome.probed p => detectAgent p claudeCodeConfig)) h2
  | 1 =>
    refine ⟨(match env 1 with
      | .threw => unavailableAgentInfo geminiCliConfig
      | .probed p => detectAgent p geminiCliConfig), geminiCliConfig,
      rfl, rfl, ?_, ?_, ?_, ?_, ?_, ?_⟩
    · cases env 1 <;> rfl
    · cases env 1 <;> rfl
    · cases env 1 <;> rfl
    · cases env 1 <;> rfl
    · intro h
      rw [h]
      exact ⟨rfl, rfl⟩
    · intro env2 h2
      exact congrArg (fun o => some (match o with
        | DetectOutcome.threw => unavailableAgentInfo geminiCliConfig
        | DetectOutcome.probed p => detectAgent p geminiCliConfig)) h2
  | n + 2 =>
    exact absurd hi (by simp [SUPPORTED_AGENTS])

/-- Witness: under an environment where every detection throws, the list
still has one entry per descriptor and the first entry reports the claude
descriptor as unavailable and unauthenticated. -/
theorem detectAllAvailableAgents_complete_witness :
    (detectAllAvailableAgents (fun _ => DetectOutcome.threw)).length =
      SUPPORTED_AGENTS.length ∧
    ∃ e c, (detectAllAvailableAgents (fun _ => DetectOutcome.threw)).get? 0 = some e ∧
      SUPPORTED_AGENTS.get? 0 = some c ∧
      e.name = c.name ∧ e.displayName = c.displayName ∧
      e.command = c.command ∧ e.supportedFeatures = c.supportedFeatures ∧
      ((fun (_ : Nat) => DetectOutcome.threw) 0 = .threw →
        e.isAvailable = false ∧ e.isAuthenticated = false) ∧
      (∀ env2, env2 0 = (fun (_ : Nat) => DetectOutcome.threw) 0 →
        (detectAllAvailableAgents env2).get? 0 = some e) := by
  have h := detectAllAvailableAgents_complete (fun _ => DetectOutcome.threw)
  exact ⟨h.1, h.2 0 (by decide)⟩

/- ### ProjectAnalyzer.analyzeImportantFiles
   (src/services/projectAnalyzer.ts, 370-427 and 429-467) -/

/-- Model of node `path.extname`: the part of the basename from its last
dot, empty when there is no dot or the only dot starts a dotfile. -/
def extnameChars (p : List Char) : List Char :=
  let base := (p.reverse.takeWhile (fun c => !(c == '/'))).reverse
  let revExt := base.reverse.takeWhile (fun c => !(c == '.'))
  if base.contains '.' && decide (revExt.length + 1 < base.length + 1) &&
      decide (revExt.length + 1 ≠ base.length) then
    '.' :: revExt.reverse
  else []

/-- The extension-to-language table of detectFileLanguage. -/
def languageMap : List (String × String) :=
  [(".ts", "typescript"), (".tsx", "typescript"), (".js", "javascript"),
   (".jsx", "javascript"), (".py", "python"), (".java", "java"),
   (".cpp", "cpp"), (".c", "c"), (".cs", "csharp"), (".php", "php"),
   (".rb", "ruby"), (".go", "go"), (".rs", "rust"), (".kt", "kotlin"),
   (".swift", "swift"), (".vue", "vue"), (".svelte", "svelte"),
   (".html", "html"), (".css", "css"), (".scss", "scss"), (".sass", "sass"),
   (".less", "less"), (".json", "json"), (".xml", "xml"), (".yaml", "yaml"),
   (".yml", "yaml"), (".md", "markdown"), (".txt", "text"), (".sh", "shell"),
   (".bat", "batch"), (".ps1", "powershell")]

/-- ProjectAnalyzer.detectFileLanguage: look the lower-cased extension up in
the table, defaulting to `text`. -/
def detectFileLanguage (filePath : String) : String :=
  match languageMap.lookup (String.mk ((extnameChars filePath.data).map asciiToLower)) with
  | some l => l
  | none => "text"

/-- The FileAnalysis record (src/models/featureSpec.ts); `lastModified` is
a timestamp. -/
structure FileAnalysis where
  path : String
  content : String
  size : Nat
  language : String
  lastModified : Nat
  summary : String
deriving DecidableEq

/-- Per-path filesystem behaviour seen by analyzeImportantFiles: the path is
absent (`fileExists` false), or `stat` throws with a message, or the file is
present with a size, an mtime and a read result that either throws or
returns the content. -/
inductive FileOutcome
  | absent
  | statThrow (msg : String)
  | present (size : Nat) (mtime : Nat) (readResult : Except String String)

/-- The catch branch of analyzeImportantFiles: error-placeholder entry. -/
def mkErrorEntry (now : Nat) (path msg : String) : FileAnalysis :=
  { path := path, content := "[Error reading file: " ++ msg ++ "]",
    size := 0, language := detectFileLanguage path, lastModified := now,
    summary := "Error reading file" }

/-- The oversized-file branch (more than 10 KB): placeholder content, no
content analysis. -/
def mkTooLargeEntry (path : String) (size mtime : Nat) : FileAnalysis :=
  { path := path,
    content := "[File too large: " ++ toString size ++ " bytes - content not analyzed]",
    size := size, language := detectFileLanguage path, lastModified := mtime,
    summary := "File too large for analysis" }

/-- The normal branch; `summarize` stands for generateFileSummary. -/
def mkContentEntry (summarize : String → String → String)
    (path content : String) (size mtime : Nat) : FileAnalysis :=
  { path := path, content := content, size := size,
    language := detectFileLanguage path, lastModified := mtime,
    summary := summarize content path }

/-- ProjectAnalyzer.analyzeImportantFiles: skip missing files, record an
error-placeholder entry when stat or read throws, record a too-large entry
above the 10 KB cap, otherwise read and analyze. -/
def analyzeImportantFiles (fs : String → FileOutcome) (now : Nat)
    (summarize : String → String → String) : List String → List FileAnalysis
  | [] => []
  | path :: rest =>
    match fs path with
    | .absent => analyzeImportantFiles fs now summarize rest
    | .statThrow msg =>
      mkErrorEntry now path msg :: analyzeImportantFiles fs now summarize rest
    | .present size mtime readResult =>
      if 10 * 1024 < size then
        mkTooLargeEntry path size mtime :: analyzeImportantFiles fs now summarize rest
      else
        match readResult with
        | .error msg =>
          mkErrorEntry now path msg :: analyzeImportantFiles fs now summarize rest
        | .ok content =>
          mkContentEntry summarize path content size mtime ::
            analyzeImportantFiles fs now summarize rest

/-- C5: analyzeImportantFiles is total (never throws) and contributes, for
every input path independently: nothing for an absent file, exactly one
error-placeholder entry (summary `Error reading file`, size 0) when stat or
read throws, and exactly one too-large entry (summary
`File too large for analysis`) above the 10 KB cap, whose fields never
consult the content analyzer. -/
theorem analyzeImportantFiles_per_path (fs : String → FileOutcome) (now : Nat)
    (summarize : String → String → String) (files : List String) :
    analyzeImportantFiles fs now summarize files = files.flatMap (fun path =>
      match fs path with
      | .absent => []
      | .statThrow msg => [mkErrorEntry now path msg]
      | .present size mtime readResult =>
        if 10 * 1024 < size then [mkTooLargeEntry path size mtime]
        else match readResult with
          | .error msg => [mkErrorEntry now path msg]
          | .ok content => [mkContentEntry summarize path content size mtime]) ∧
    (∀ path msg, (mkErrorEntry now path msg).summary = "Error reading file" ∧
      (mkErrorEntry now path msg).size = 0) ∧
    (∀ path size mtime,
      (mkTooLargeEntry path size mtime).summary = "File too large for analysis") := by
  refine ⟨?_, fun path msg => ⟨rfl, rfl⟩, fun path size mtime => rfl⟩
  induction files with
  | nil => rfl
  | cons p rest ih =>
    cases hfs : fs p with
    | absent =>
      simp only [analyzeImportantFiles, hfs, List.flatMap_cons, List.nil_append, ih]
    | statThrow msg =>
      simp only [analyzeImportantFiles, hfs, List.flatMap_cons, List.singleton_append, ih]
    | present size mtime r =>
      by_cases hsz : 10 * 1024 < size
      · simp only [analyzeImportantFiles, hfs, List.flatMap_cons, if_pos hsz,
          List.singleton_append, ih]
      · cases r with
        | error msg =>
          simp only [analyzeImportantFiles, hfs, List.flatMap_cons, if_neg hsz,
            List.singleton_append, ih]
        | ok content =>
          simp only [analyzeImportantFiles, hfs, List.flatMap_cons, if_neg hsz,
            List.singleton_append, ih]

/- ### ProjectAnalyzer.performAnalysis and its detectors
   (src/services/projectAnalyzer.ts, 33-262) -/

/-- A parsed package.json: either dependency object may be missing. -/
structure PackageJson where
  dependencies : Option (List (String × String))
  devDependencies : Option (List (String × String))

/-- The PackageInfo record (src/models/featureSpec.ts). -/
structure PackageInfo where
  name : String
  version : String
  isDevDependency : Bool
deriving DecidableEq

/-- The FileStructure record (src/models/featureSpec.ts); `size` is absent
for directories. -/
structure FileStructureEntry where
  path : String
  itemType : String
  size : Option Nat
  lastModified : Nat
deriving DecidableEq

/-- The ConfigFile record (src/models/featureSpec.ts). -/
structure ConfigFile where
  name : String
  path : String
  content : String
deriving DecidableEq

/-- One successfully stat-ed directory entry
(getDirectoryContentsWithStats skips the ones that fail). -/
structure DirItem where
  name : String
  isDirectory : Bool
  size : Nat
  mtime : Nat

/-- The CLIProjectContext record (src/models/featureSpec.ts). -/
structure CLIProjectContext where
  projectType : String
  framework : Option String
  packageManager : Option String
  buildTools : List String
  testFramework : Option String
  dependencies : List PackageInfo
  projectStructure : List FileStructureEntry
  configFiles : List ConfigFile

/-- The filesystem as performAnalysis observes it: the workspace directory
listing (empty when readdir throws, matching getDirectoryContents), the
existence and parse result of package.json (`none` models a throwing
readJsonFile, whose exception propagates), the existence and read result of
requirements.txt, the stat-successful directory items, and existence/read
oracles for the config-file patterns (a failed config read is caught and
skipped). -/
structure AnalyzerFs where
  files : List String
  pkgExists : Bool
  pkgJson : Option PackageJson
  reqExists : Bool
  reqText : Option String
  items : List DirItem
  cfgExists : String → Bool
  cfgRead : String → Option String

/-- ProjectAnalyzer.detectProjectType. -/
def detectProjectType (files : List String) : String :=
  if files.any (fun f => f.endsWith "tsconfig.json" || f.endsWith ".ts") then
    "typescript"
  else if files.any (fun f => f.endsWith "package.json" || f.endsWith ".js" ||
      f.endsWith ".jsx") then "javascript"
  else if files.any (fun f => f.endsWith "requirements.txt" ||
      f.endsWith "setup.py" || f.endsWith ".py") then "python"
  else if files.any (fun f => f.endsWith "pom.xml" ||
      f.endsWith "build.gradle" || f.endsWith ".java") then "java"
  else "other"

/-- `{...dependencies, ...devDependencies}`: dev entries override. -/
def depLookup (pkg : PackageJson) (depName : String) : Option String :=
  match (pkg.devDependencies.getD []).lookup depName with
  | some v => some v
  | none => (pkg.dependencies.getD []).lookup depName

/-- Truthiness of `deps.name` in JS: present with a non-empty version. -/
def hasDep (pkg : PackageJson) (depName : String) : Bool :=
  match depLookup pkg depName with
  | some v => v != ""
  | none => false

def frameworkOfPkg (pkg : PackageJson) : Option String :=
  if hasDep pkg "react" then some "React"
  else if hasDep pkg "vue" then some "Vue"
  else if hasDep pkg "@angular/core" then some "Angular"
  else if hasDep pkg "svelte" then some "Svelte"
  else if hasDep pkg "next" then some "Next.js"
  else if hasDep pkg "nuxt" then some "Nuxt.js"
  else if hasDep pkg "express" then some "Express"
  else if hasDep pkg "nestjs" then some "NestJS"
  else none

/-- ProjectAnalyzer.detectFramework; the outer `none` models a thrown
read/parse error propagating out of performAnalysis. -/
def detectFramework (fs : AnalyzerFs) (projectType : String) :
    Option (Option String) :=
  if projectType = "typescript" ∨ projectType = "javascript" then
    if fs.pkgExists then
      match fs.pkgJson with
      | none => none
      | some pkg => some (frameworkOfPkg pkg)
    else some none
  else if projectType = "python" then
    if fs.reqExists then
      match fs.reqText with
      | none => none
      | some content =>
        if occurs "django".data content.data then some (some "Django")
        else if occurs "flask".data content.data then some (some "Flask")
        else if occurs "fastapi".data content.data then some (some "FastAPI")
        else some none
    else some none
  else some none

/-- ProjectAnalyzer.detectPackageManager. -/
def detectPackageManager (files : List String) : Option String :=
  if files.contains "yarn.lock" then some "yarn"
  else if files.contains "pnpm-lock.yaml" then some "pnpm"
  else if files.contains "package-lock.json" then some "npm"
  else if files.contains "package.json" then some "npm"
  else none

/-- ProjectAnalyzer.detectBuildTools. -/
def detectBuildTools (files : List String) : List String :=
  (if files.contains "webpack.config.js" || files.contains "webpack.config.ts"
    then ["webpack"] else []) ++
  (if files.contains "vite.config.js" || files.contains "vite.config.ts"
    then ["vite"] else []) ++
  (if files.contains "rollup.config.js" then ["rollup"] else []) ++
  (if files.contains "gulpfile.js" then ["gulp"] else []) ++
  (if files.contains "Gruntfile.js" then ["grunt"] else [])

def testFrameworkOfPkg (pkg : PackageJson) : Option String :=
  if hasDep pkg "jest" then some "jest"
  else if hasDep pkg "mocha" then some "mocha"
  else if hasDep pkg "jasmine" then some "jasmine"
  else if hasDep pkg "vitest" then some "vitest"
  else if hasDep pkg "cypress" then some "cypress"
  else if hasDep pkg "playwright" then some "playwright"
  else none

/-- ProjectAnalyzer.detectTestFramework: check package.json dependencies,
then requirements.txt phrases; a throwing readJsonFile propagates. -/
def detectTestFramework (fs : AnalyzerFs) : Option (Option String) :=
  match (if fs.pkgExists then
      match fs.pkgJson with
      | none => none
      | some pkg => some (testFrameworkOfPkg pkg)
    else some none : Option (Option String)) with
  | none => none
  | some (some t) => some (some t)
  | some none =>
    if fs.reqExists then
      match fs.reqText with
      | none => none
      | some content =>
        if occurs "pytest".data content.data then some (some "pytest")
        else if occurs "unittest".data content.data then some (some "unittest")
        else some none
    else some none

/-- ProjectAnalyzer.extractDependencies: production then development entries
from package.json (for JS/TS projects), capped by `slice(0, 20)`. -/
def extractDependencies (fs : AnalyzerFs) (projectType : String) :
    Option (List PackageInfo) :=
  if projectType = "typescript" ∨ projectType = "javascript" then
    if fs.pkgExists then
      match fs.pkgJson with
      | none => none
      | some pkg =>
        some (((pkg.dependencies.getD []).map
            (fun nv => PackageInfo.mk nv.1 nv.2 false) ++
          (pkg.devDependencies.getD []).map
            (fun nv => PackageInfo.mk nv.1 nv.2 true)).take 20)
    else some []
  else some []

/-- ProjectAnalyzer.shouldIncludeInStructure. -/
def shouldIncludeInStructure (entryName : String) : Bool :=
  !(["node_modules", ".git", ".vscode", "dist", "build", "__pycache__",
     ".pytest_cache", "coverage", ".nyc_output"].contains entryName) &&
  !(entryName.startsWith ".")

/-- ProjectAnalyzer.analyzeProjectStructure: filter, shape and cap by
`slice(0, 50)`. -/
def analyzeProjectStructure (items : List DirItem) : List FileStructureEntry :=
  ((items.filter (fun it => shouldIncludeInStructure it.name)).map (fun it =>
    { path := it.name,
      itemType := if it.isDirectory then "directory" else "file",
      size := if it.isDirectory then none else some it.size,
      lastModified := it.mtime })).take 50

def configPatterns : List String :=
  ["package.json", "tsconfig.json", "webpack.config.js", "vite.config.js",
   ".eslintrc.js", ".prettierrc", "jest.config.js", "requirements.txt",
   "setup.py", "pom.xml", "build.gradle"]

/-- ProjectAnalyzer.findConfigFiles: read each existing pattern, skip the
ones whose read throws, truncate contents over 2000 characters. -/
def findConfigFiles (workspacePath : String) (fs : AnalyzerFs) : List ConfigFile :=
  configPatterns.flatMap (fun pattern =>
    if fs.cfgExists pattern then
      match fs.cfgRead pattern with
      | none => []
      | some content =>
        [{ name := pattern, path := workspacePath ++ "/" ++ pattern,
           content := if 2000 < content.length then content.take 2000 ++ "..."
             else content }]
    else [])

/-- ProjectAnalyzer.performAnalysis: `none` models a thrown exception
(propagated by analyzeProject). -/
def performAnalysis (workspacePath : String) (fs : AnalyzerFs) :
    Option CLIProjectContext :=
  let projectType := detectProjectType fs.files
  match detectFramework fs projectType with
  | none => none
  | some framework =>
    match detectTestFramework fs with
    | none => none
    | some testFramework =>
      match extractDependencies fs projectType with
      | none => none
      | some dependencies =>
        some (CLIProjectContext.mk projectType framework
          (detectPackageManager fs.files) (detectBuildTools fs.files)
          testFramework dependencies (analyzeProjectStructure fs.items)
          (findConfigFiles workspacePath fs))

theorem extractDependencies_length_le (fs : AnalyzerFs) (pt : String)
    (deps : List PackageInfo) (h : extractDependencies fs pt = some deps) :
    deps.length ≤ 20 := by
  unfold extractDependencies at h
  split at h
  · split at h
    · cases hp : fs.pkgJson with
      | none =>
        rw [hp] at h
        exact Option.noConfusion h
      | some pkg =>
        rw [hp] at h
        rw [← Option.some.inj h]
        exact List.length_take_le 20 _
    · rw [← Option.some.inj h]
      simp
  · rw [← Option.some.inj h]
    simp

theorem analyzeProjectStructure_length_le (items : List DirItem) :
    (analyzeProjectStructure items).length ≤ 50 :=
  List.length_take_le 50 _

/-- C9: the dependency list of extractDependencies never exceeds 20 entries,
the structural listing of analyzeProjectStructure never exceeds 50, and both
caps hold on every CLIProjectContext performAnalysis returns. -/
theorem projectAnalyzer_caps (fs : AnalyzerFs) (pt : String)
    (items : List DirItem) (workspacePath : String) :
    (∀ deps, extractDependencies fs pt = some deps → deps.length ≤ 20) ∧
    (analyzeProjectStructure items).length ≤ 50 ∧
    (∀ ctx, performAnalysis workspacePath fs = some ctx →
      ctx.dependencies.length ≤ 20 ∧ ctx.projectStructure.length ≤ 50) := by
  refine ⟨fun deps h => extractDependencies_length_le fs pt deps h,
    analyzeProjectStructure_length_le items, ?_⟩
  intro ctx h
  simp only [performAnalysis] at h
  split at h
  · exact Option.noConfusion h
  · split at h
    · exact Option.noConfusion h
    · split at h
      · exact Option.noConfusion h
      · rename_i deps hdeps
        rw [← Option.some.inj h]
        exact ⟨extractDependencies_length_le fs _ deps hdeps,
          analyzeProjectStructure_length_le fs.items⟩

/-- Witness: a concrete empty workspace analyzes to a context within both
caps. -/
def emptyAnalyzerFs : AnalyzerFs :=
  { files := [], pkgExists := false, pkgJson := none, reqExists := false,
    reqText := none, items := [], cfgExists := fun _ => false,
    cfgRead := fun _ => none }

theorem projectAnalyzer_caps_witness :
    ∃ ctx, performAnalysis "ws" emptyAnalyzerFs = some ctx ∧
      ctx.dependencies.length ≤ 20 ∧ ctx.projectStructure.length ≤ 50 := by
  refine ⟨_, rfl, (projectAnalyzer_caps emptyAnalyzerFs "other" [] "ws").2.2 _ rfl⟩

/- ### CLIDetector.parseVersion and getVersion
   (src/utils/cliDetector.ts, 92-127) -/

/-- Splitting `takeWhile`/`dropWhile` at a boundary where the predicate
fails. -/
theorem takeWhile_dropWhile_append (p : Char → Bool) (a b : List Char)
    (ha : ∀ c ∈ a, p c = true) (hb : ∀ d, b.head? = some d → p d = false) :
    (a ++ b).takeWhile p = a ∧ (a ++ b).dropWhile p = b := by
  induction a with
  | nil =>
    simp only [List.nil_append]
    cases b with
    | nil => exact ⟨rfl, rfl⟩
    | cons d t =>
      have hd := hb d rfl
      constructor
      · simp [List.takeWhile_cons, hd]
      · simp [List.dropWhile_cons, hd]
  | cons c a ih =>
    have hc := ha c (by simp)
    have ihh := ih (fun x hx => ha x (by simp [hx]))
    constructor
    · simp [List.takeWhile_cons, hc, ihh.1]
    · simp [List.dropWhile_cons, hc, ihh.2]

theorem head?_dot_decomp (l : List Char) (h : l.head? = some '.') :
    l = '.' :: l.tail := by
  cases l with
  | nil => exact absurd h (by simp)
  | cons a t =>
    simp only [List.head?_cons, Option.some.injEq] at h
    rw [h]
    rfl

/-- Greedy match of the version regex `(\d+\.\d+\.\d+)` anchored at the
start of `s`: a maximal nonempty digit run, a literal dot, twice more. -/
def matchSemverAt (s : List Char) : Option (List Char) :=
  if (s.takeWhile Char.isDigit).isEmpty then none
  else if (s.dropWhile Char.isDigit).head? = some '.' then
    if (((s.dropWhile Char.isDigit).tail).takeWhile Char.isDigit).isEmpty then none
    else if (((s.dropWhile Char.isDigit).tail).dropWhile Char.isDigit).head? = some '.' then
      if (((((s.dropWhile Char.isDigit).tail).dropWhile Char.isDigit).tail).takeWhile Char.isDigit).isEmpty then none
      else some (s.takeWhile Char.isDigit ++
        '.' :: (((s.dropWhile Char.isDigit).tail).takeWhile Char.isDigit ++
          '.' :: ((((s.dropWhile Char.isDigit).tail).dropWhile Char.isDigit).tail).takeWhile Char.isDigit))
    else none
  else none

/-- The leftmost match of the version regex (`output.match(versionRegex)`). -/
def findSemver : List Char → Option (List Char)
  | [] => none
  | c :: s =>
    match matchSemverAt (c :: s) with
    | some m => some m
    | none => findSemver s

/-- CLIDetector.parseVersion: return the first `major.minor.patch`
substring, else the first line (`output.split('\n')[0]`). -/
def parseVersion (output : List Char) : List Char :=
  match findSemver output with
  | some m => m
  | none => output.takeWhile (fun c => !(c == '\n'))

/-- CLIDetector.getVersion: a successful probe resolves to the trimmed
stdout and is parsed; a failed probe reports `Unknown`. -/
def getVersion (execResult : Option (List Char)) : List Char :=
  match execResult with
  | some out => parseVersion (jsTrim out)
  | none => "Unknown".data

/-- What the spec's words call a `major.minor.patch` substring: nonempty
digit runs separated by two dots. -/
def IsSemverChunk (m : List Char) : Prop :=
  ∃ d1 d2 d3 : List Char, d1 ≠ [] ∧ d2 ≠ [] ∧ d3 ≠ [] ∧
    (∀ c ∈ d1, c.isDigit = true) ∧ (∀ c ∈ d2, c.isDigit = true) ∧
    (∀ c ∈ d3, c.isDigit = true) ∧
    m = d1 ++ '.' :: (d2 ++ '.' :: d3)

theorem matchSemverAt_some_spec (s m : List Char)
    (h : matchSemverAt s = some m) : IsSemverChunk m ∧ ∃ v, s = m ++ v := by
  unfold matchSemverAt at h
  split at h
  · exact Option.noConfusion h
  · rename_i hd1
    split at h
    · rename_i hdot1
      split at h
      · exact Option.noConfusion h
      · rename_i hd2
        split at h
        · rename_i hdot2
          split at h
          · exact Option.noConfusion h
          · rename_i hd3
            have hm := (Option.some.inj h).symm
            refine ⟨⟨s.takeWhile Char.isDigit,
              ((s.dropWhile Char.isDigit).tail).takeWhile Char.isDigit,
              ((((s.dropWhile Char.isDigit).tail).dropWhile Char.isDigit).tail).takeWhile Char.isDigit,
              by simpa [List.isEmpty_iff] using hd1,
              by simpa [List.isEmpty_iff] using hd2,
              by simpa [List.isEmpty_iff] using hd3,
              fun c hc => List.mem_takeWhile_imp hc,
              fun c hc => List.mem_takeWhile_imp hc,
              fun c hc => List.mem_takeWhile_imp hc, hm⟩, ?_⟩
            refine ⟨((((s.dropWhile Char.isDigit).tail).dropWhile Char.isDigit).tail).dropWhile Char.isDigit, ?_⟩
            rw [hm]
            conv_lhs => rw [← List.takeWhile_append_dropWhile Char.isDigit s]
            conv_lhs => rw [head?_dot_decomp _ hdot1]
            conv_lhs =>
              rw [← List.takeWhile_append_dropWhile Char.isDigit
                ((s.dropWhile Char.isDigit).tail)]
            conv_lhs => rw [head?_dot_decomp _ hdot2]
            conv_lhs =>
              rw [← List.takeWhile_append_dropWhile Char.isDigit
                ((((s.dropWhile Char.isDigit).tail).dropWhile Char.isDigit).tail)]
            simp
        · exact Option.noConfusion h
    · exact Option.noConfusion h

theorem matchSemverAt_of_chunk_start (m v s : List Char)
    (hm : IsSemverChunk m) (hs : s = m ++ v) : matchSemverAt s ≠ none := by
  rcases hm with ⟨d1, d2, d3, h1, h2, h3, hd1, hd2, hd3, rfl⟩
  have hs' : s = d1 ++ ('.' :: (d2 ++ '.' :: (d3 ++ v))) := by
    rw [hs]
    simp
  have hsplit1 := takeWhile_dropWhile_append Char.isDigit d1
    ('.' :: (d2 ++ '.' :: (d3 ++ v))) hd1
    (by
      intro d hd
      rw [List.head?_cons, Option.some.injEq] at hd
      rw [← hd]
      decide)
  have hsplit2 := takeWhile_dropWhile_append Char.isDigit d2
    ('.' :: (d3 ++ v)) hd2
    (by
      intro d hd
      rw [List.head?_cons, Option.some.injEq] at hd
      rw [← hd]
      decide)
  have htw3 : ¬ ((d3 ++ v).takeWhile Char.isDigit).isEmpty = true := by
    cases d3 with
    | nil => exact absurd rfl h3
    | cons e t =>
      have he : Char.isDigit e = true := hd3 e (by simp)
      rw [List.cons_append, List.takeWhile_cons, he]
      simp
  unfold matchSemverAt
  rw [hs', hsplit1.1, hsplit1.2]
  rw [if_neg (by simpa [List.isEmpty_iff] using h1)]
  rw [List.head?_cons]
  rw [if_pos rfl]
  rw [List.tail_cons]
  rw [hsplit2.1, hsplit2.2]
  rw [if_neg (by simpa [List.isEmpty_iff] using h2)]
  rw [List.head?_cons]
  rw [if_pos rfl]
  rw [List.tail_cons]
  rw [if_neg htw3]
  exact Option.noConfusion

theorem findSemver_none_spec (out : List Char) (h : findSemver out = none) :
    ∀ m, IsSemverChunk m → occurs m out = false := by
  induction out with
  | nil =>
    intro m hm
    rcases hm with ⟨d1, d2, d3, h1, _, _, _, _, _, rfl⟩
    cases d1 with
    | nil => exact absurd rfl h1
    | cons c t => rfl
  | cons c s ih =>
    intro m hm
    have hsplit : matchSemverAt (c :: s) = none ∧ findSemver s = none := by
      unfold findSemver at h
      cases hmm : matchSemverAt (c :: s) with
      | some m0 =>
        rw [hmm] at h
        exact Option.noConfusion h
      | none =>
        rw [hmm] at h
        exact ⟨rfl, h⟩
    have hpre : m.isPrefixOf (c :: s) = false := by
      cases hp : m.isPrefixOf (c :: s) with
      | false => rfl
      | true =>
        exfalso
        rcases (isPrefixOf_iff_ex _ _).mp hp with ⟨v, hv⟩
        exact matchSemverAt_of_chunk_start m v (c :: s) hm hv hsplit.1
    show (m.isPrefixOf (c :: s) || occurs m s) = false
    rw [hpre, ih hsplit.2 m hm]
    rfl

theorem findSemver_some_spec (out m : List Char) (h : findSemver out = some m) :
    IsSemverChunk m ∧ ∃ u v, out = u ++ m ++ v ∧
      ∀ u' m' v', out = u' ++ m' ++ v' → IsSemverChunk m' →
        u.length ≤ u'.length := by
  induction out generalizing m with
  | nil => exact Option.noConfusion h
  | cons c s ih =>
    unfold findSemver at h
    cases hmm : matchSemverAt (c :: s) with
    | some m0 =>
      rw [hmm] at h
      have hm0 : m0 = m := Option.some.inj h
      subst hm0
      rcases matchSemverAt_some_spec (c :: s) m0 hmm with ⟨hchunk, v, hv⟩
      exact ⟨hchunk, [], v, by simpa using hv, fun u' m' v' _ _ => by simp⟩
    | none =>
      rw [hmm] at h
      rcases ih m h with ⟨hchunk, u1, v1, hv1, hmin⟩
      refine ⟨hchunk, c :: u1, v1, by simp [hv1], ?_⟩
      intro u' m' v' hout hm'
      cases u' with
      | nil =>
        exfalso
        exact matchSemverAt_of_chunk_start m' v' (c :: s) hm' (by simpa using hout) hmm
      | cons c2 u1' =>
        have hs : s = u1' ++ m' ++ v' := by
          have h5 := hout
          simp only [List.cons_append, List.cons.injEq] at h5
          exact h5.2
        have := hmin u1' m' v' hs hm'
        simp only [List.length_cons]
        omega

/-- C8 (amended): for a successful version probe the reported version is the
leftmost `digits.digits.digits` substring of the trimmed output; when no
such substring exists the reported version is the first line of the trimmed
output, and the string `Unknown` is what failed probes report. -/
theorem parseVersion_first_semver (raw : List Char) :
    (∀ m, findSemver (jsTrim raw) = some m →
      getVersion (some raw) = m ∧ IsSemverChunk m ∧
      ∃ u v, jsTrim raw = u ++ m ++ v ∧
        ∀ u' m' v', jsTrim raw = u' ++ m' ++ v' → IsSemverChunk m' →
          u.length ≤ u'.length) ∧
    (findSemver (jsTrim raw) = none →
      getVersion (some raw) = (jsTrim raw).takeWhile (fun c => !(c == '\n')) ∧
      ∀ m, IsSemverChunk m → occurs m (jsTrim raw) = false) ∧
    getVersion none = "Unknown".data := by
  refine ⟨?_, ?_, rfl⟩
  · intro m hm
    rcases findSemver_some_spec (jsTrim raw) m hm with ⟨hchunk, u, v, hv, hmin⟩
    refine ⟨?_, hchunk, u, v, hv, hmin⟩
    show parseVersion (jsTrim raw) = m
    unfold parseVersion
    rw [hm]
  · intro hnone
    constructor
    · show parseVersion (jsTrim raw) = _
      unfold parseVersion
      rw [hnone]
    · exact findSemver_none_spec (jsTrim raw) hnone

/-- Witness: a successful probe whose trimmed output is
`gcloud 1.22.3 ok` reports `1.22.3`, a semver chunk. -/
theorem parseVersion_first_semver_witness :
    getVersion (some " gcloud 1.22.3 ok".data) = "1.22.3".data ∧
    IsSemverChunk "1.22.3".data := by
  have h := (parseVersion_first_semver " gcloud 1.22.3 ok".data).1
    "1.22.3".data (by decide)
  exact ⟨h.1, h.2.1⟩

/-- C8 counterexample: a successful probe with no `d.d.d` substring in the
output reports the first output line, not the string `Unknown`. -/
theorem parseVersion_claim_cex :
    getVersion (some "Google Cloud SDK\ncore tools".data) = "Google Cloud SDK".data ∧
    getVersion (some "Google Cloud SDK\ncore tools".data) ≠ "Unknown".data := by
  decide

/- ### PromptBuilder.buildPrompt and the PROMPT_TEMPLATES table
   (src/constants/prompts.ts, 1-230) -/

/-- The six placeholders, in the order buildPrompt substitutes them. -/
inductive Ph
  | ps
  | fc
  | ic
  | filec
  | fp
  | ifa
deriving DecidableEq

def allPhs : List Ph := [.ps, .fc, .ic, .filec, .fp, .ifa]

theorem ph_mem_allPhs (p : Ph) : p ∈ allPhs := by
  cases p <;> decide

/-- The placeholder tokens. -/
def tokOf : Ph → List Char
  | .ps => "{projectSummary}".data
  | .fc => "{featureContent}".data
  | .ic => "{implementationContext}".data
  | .filec => "{fileContent}".data
  | .fp => "{filePath}".data
  | .ifa => "{importantFilesAnalysis}".data

/-- The fallback texts buildPrompt substitutes for absent values. -/
def fallbackOf : Ph → List Char
  | .ps => "No project context available".data
  | .fc => "No feature content provided".data
  | .ic => "No implementation context provided".data
  | .filec => "No file content provided".data
  | .fp => "No file path provided".data
  | .ifa => "No important files specified".data

/-- The context field feeding each placeholder. -/
def fieldOf (ctx : PromptContext) : Ph → Option (List Char)
  | .ps => some ctx.projectSummary
  | .fc => some ctx.featureContent
  | .ic => ctx.implementationContext
  | .filec => ctx.fileContent
  | .fp => ctx.filePath
  | .ifa => ctx.importantFilesAnalysis

/-- `context.field || fallback`: an absent or empty value falls back. -/
def valOf (ctx : PromptContext) (p : Ph) : List Char :=
  match fieldOf ctx p with
  | some v => if v.isEmpty then fallbackOf p else v
  | none => fallbackOf p

/-- PromptBuilder.buildPrompt: six successive first-occurrence
replacements, then `trim`. -/
def buildPrompt (template : List Char) (ctx : PromptContext) : List Char :=
  jsTrim (replaceFirst (tokOf .ifa) (valOf ctx .ifa)
    (replaceFirst (tokOf .fp) (valOf ctx .fp)
      (replaceFirst (tokOf .filec) (valOf ctx .filec)
        (replaceFirst (tokOf .ic) (valOf ctx .ic)
          (replaceFirst (tokOf .fc) (valOf ctx .fc)
            (replaceFirst (tokOf .ps) (valOf ctx .ps) template))))))

/-- The same substitutions as a fold over the substitution order. -/
def subList (ctx : PromptContext) : List Ph → List Char → List Char
  | [], s => s
  | p :: rest, s => subList ctx rest (replaceFirst (tokOf p) (valOf ctx p) s)

def subOrder : List Ph := [.ps, .fc, .ic, .filec, .fp, .ifa]

theorem buildPrompt_eq_subList (template : List Char) (ctx : PromptContext) :
    buildPrompt template ctx = jsTrim (subList ctx subOrder template) := rfl

/- Global token facts. -/

theorem tok_ne_nil (p : Ph) : tokOf p ≠ [] := by
  cases p <;> decide

theorem tok_no_newline (p : Ph) : ('\n' ∈ tokOf p → False) ∧ (' ' ∈ tokOf p → False) := by
  cases p <;> exact ⟨by decide, by decide⟩

theorem tok_not_in_tok (q p : Ph) (h : q ≠ p) :
    occurs (tokOf q) (tokOf p) = false := by
  cases q <;> cases p <;> first
    | exact absurd rfl h
    | decide

theorem fallback_ok (p q : Ph) :
    fallbackOf p ≠ [] ∧ occurs (tokOf q) (fallbackOf p) = false := by
  cases p <;> cases q <;> exact ⟨by decide, by decide⟩

/- Structural facts about the tokens: each is an opening brace, a body free
of braces and whitespace, and a closing brace.  They rule out any overlap
between token occurrences. -/

theorem tok_head_open (p : Ph) : (tokOf p).head? = some (Char.ofNat 123) := by
  cases p <;> rfl

theorem tok_tail_no_open (p : Ph) : Char.ofNat 123 ∉ (tokOf p).tail := by
  cases p <;> decide

theorem tok_prefix_eq (p q : Ph)
    (h : (tokOf q).isPrefixOf (tokOf p) = true) : q = p := by
  cases p <;> cases q <;> revert h <;> decide

theorem tok_no_ws (p : Ph) : ∀ c ∈ tokOf p, jsWhitespace c = false := by
  cases p <;> decide

theorem countOcc_tok_self (p : Ph) : countOcc (tokOf p) (tokOf p) = 1 := by
  cases p <;> decide

theorem countOcc_tok_other (p q : Ph) (h : p ≠ q) :
    countOcc (tokOf p) (tokOf q) = 0 := by
  cases p <;> cases q <;> first | exact absurd rfl h | decide

/-- A token cannot straddle a boundary whose right side starts with a token:
the straddling suffix would have to begin with an opening brace, which a
token holds only in first position. -/
theorem noStraddle_before_tok (p q : Ph) (u v : List Char) :
    ∀ x y, tokOf p = x ++ y → x ≠ [] → y ≠ [] →
      (∃ a0, u = a0 ++ x) → (∃ b0, tokOf q ++ v = y ++ b0) → False := by
  rintro x y hxy hx hy - ⟨b0, hb0⟩
  cases y with
  | nil => exact hy rfl
  | cons e y2 =>
    have he : e = Char.ofNat 123 := by
      have h1 : (tokOf q ++ v).head? = some (Char.ofNat 123) :=
        head?_append_some _ v _ (by
          have h2 := tok_head_open q
          cases htok : tokOf q with
          | nil => rw [htok] at h2; exact Option.noConfusion h2
          | cons c0 t0 => rw [htok] at h2; simpa using h2)
      rw [hb0] at h1
      simpa using h1
    subst he
    cases x with
    | nil => exact hx rfl
    | cons c x2 =>
      apply tok_tail_no_open p
      rw [hxy, show ((c :: x2) ++ (Char.ofNat 123 :: y2)).tail =
        x2 ++ (Char.ofNat 123 :: y2) from rfl]
      simp

/-- A token cannot straddle a boundary whose left side ends with a token:
the straddling prefix would begin with an opening brace inside the left
token, or make one token a proper prefix of another. -/
theorem noStraddle_after_tok (p q : Ph) (v : List Char) :
    ∀ x y, tokOf p = x ++ y → x ≠ [] → y ≠ [] →
      (∃ a0, tokOf q = a0 ++ x) → (∃ b0, v = y ++ b0) → False := by
  rintro x y hxy hx hy ⟨a0, ha0⟩ -
  cases x with
  | nil => exact hx rfl
  | cons c x2 =>
    have hc : c = Char.ofNat 123 := by
      have h1 := tok_head_open p
      rw [hxy] at h1
      simpa using h1
    subst hc
    cases a0 with
    | nil =>
      rw [List.nil_append] at ha0
      have hq : (tokOf q).isPrefixOf (tokOf p) = true := by
        apply (isPrefixOf_iff_ex _ _).mpr
        exact ⟨y, by rw [hxy, ha0]⟩
      have hqp : q = p := tok_prefix_eq p q hq
      rw [hqp] at ha0
      have hlen := congrArg List.length hxy
      rw [← ha0] at hlen
      simp at hlen
      exact hy hlen
    | cons d a2 =>
      apply tok_tail_no_open q
      rw [ha0, show ((d :: a2) ++ (Char.ofNat 123 :: x2)).tail =
        a2 ++ (Char.ofNat 123 :: x2) from rfl]
      simp

/-- Counting a token through another token slot: the slot itself holds at
most the exact occurrence, and nothing straddles its edges. -/
theorem countOcc_slot_le (p q : Ph) (u v : List Char) :
    countOcc (tokOf p) (u ++ (tokOf q ++ v)) ≤
      countOcc (tokOf p) u +
        (countOcc (tokOf p) (tokOf q) + countOcc (tokOf p) v) := by
  have h1 := countOcc_append_le (tokOf p) u (tokOf q ++ v)
    (noStraddle_before_tok p q u v)
  have h2 := countOcc_append_le (tokOf p) (tokOf q) v
    (noStraddle_after_tok p q v)
  omega

/- The admissibility condition of the claim on supplied context values:
   non-empty and containing no placeholder token. -/

def noTokens (s : List Char) : Bool := allPhs.all (fun q => !(occurs (tokOf q) s))

def optFieldOk (o : Option (List Char)) : Bool :=
  match o with
  | none => true
  | some v => !v.isEmpty && noTokens v

def ctxOk (ctx : PromptContext) : Bool :=
  !ctx.projectSummary.isEmpty && noTokens ctx.projectSummary &&
  !ctx.featureContent.isEmpty && noTokens ctx.featureContent &&
  optFieldOk ctx.implementationContext && optFieldOk ctx.fileContent &&
  optFieldOk ctx.filePath && optFieldOk ctx.importantFilesAnalysis

theorem noTokens_spec (s : List Char) (h : noTokens s = true) (q : Ph) :
    occurs (tokOf q) s = false := by
  have h2 := (List.all_eq_true.mp h) q (ph_mem_allPhs q)
  simpa using h2

theorem valOf_ok_of_field (ctx : PromptContext) (p q : Ph)
    (o : Option (List Char)) (hfield : fieldOf ctx p = o)
    (ho : optFieldOk o = true) :
    valOf ctx p ≠ [] ∧ occurs (tokOf q) (valOf ctx p) = false := by
  cases o with
  | none =>
    have hv : valOf ctx p = fallbackOf p := by
      simp only [valOf, hfield]
    rw [hv]
    exact fallback_ok p q
  | some v =>
    simp only [optFieldOk, Bool.and_eq_true, Bool.not_eq_true'] at ho
    have hv : valOf ctx p = v := by
      simp only [valOf, hfield]
      rw [if_neg (by rw [ho.1]; exact Bool.false_ne_true)]
    rw [hv]
    refine ⟨?_, noTokens_spec v ho.2 q⟩
    intro h0
    rw [h0] at ho
    exact absurd ho.1 (by simp)

theorem valOf_ok (ctx : PromptContext) (h : ctxOk ctx = true) (p q : Ph) :
    valOf ctx p ≠ [] ∧ occurs (tokOf q) (valOf ctx p) = false := by
  simp only [ctxOk, Bool.and_eq_true] at h
  obtain ⟨⟨⟨⟨⟨⟨⟨hps1, hps2⟩, hfc1⟩, hfc2⟩, hic⟩, hfile⟩, hfp⟩, hifa⟩ := h
  cases p with
  | ps =>
    exact valOf_ok_of_field ctx Ph.ps q (some ctx.projectSummary) rfl
      (by simp [optFieldOk, hps1, hps2])
  | fc =>
    exact valOf_ok_of_field ctx Ph.fc q (some ctx.featureContent) rfl
      (by simp [optFieldOk, hfc1, hfc2])
  | ic => exact valOf_ok_of_field ctx Ph.ic q ctx.implementationContext rfl hic
  | filec => exact valOf_ok_of_field ctx Ph.filec q ctx.fileContent rfl hfile
  | fp => exact valOf_ok_of_field ctx Ph.fp q ctx.filePath rfl hfp
  | ifa => exact valOf_ok_of_field ctx Ph.ifa q ctx.importantFilesAnalysis rfl hifa

/- The strengthened admissibility used by the amended claim: supplied values
also contain none of the GetSubstitution dollar patterns, so each replacement
is inserted verbatim. -/

def optFieldSafe (o : Option (List Char)) : Bool :=
  match o with
  | none => true
  | some v => noSubstPatterns v

def ctxSafe (ctx : PromptContext) : Bool :=
  noSubstPatterns ctx.projectSummary && noSubstPatterns ctx.featureContent &&
  optFieldSafe ctx.implementationContext && optFieldSafe ctx.fileContent &&
  optFieldSafe ctx.filePath && optFieldSafe ctx.importantFilesAnalysis

theorem fallback_noSubst (p : Ph) : noSubstPatterns (fallbackOf p) = true := by
  cases p <;> decide

theorem valOf_safe_of_field (ctx : PromptContext) (p : Ph)
    (o : Option (List Char)) (hfield : fieldOf ctx p = o)
    (ho : optFieldSafe o = true) :
    noSubstPatterns (valOf ctx p) = true := by
  cases o with
  | none =>
    have hv : valOf ctx p = fallbackOf p := by simp only [valOf, hfield]
    rw [hv]
    exact fallback_noSubst p
  | some v =>
    simp only [optFieldSafe] at ho
    have hv : valOf ctx p = if v.isEmpty then fallbackOf p else v := by
      simp only [valOf, hfield]
    rw [hv]
    by_cases he : v.isEmpty = true
    · rw [if_pos he]
      exact fallback_noSubst p
    · rw [if_neg he]
      exact ho

theorem valOf_noSubst (ctx : PromptContext) (h : ctxSafe ctx = true) (p : Ph) :
    noSubstPatterns (valOf ctx p) = true := by
  simp only [ctxSafe, Bool.and_eq_true] at h
  obtain ⟨⟨⟨⟨⟨hps, hfc⟩, hic⟩, hfile⟩, hfp⟩, hifa⟩ := h
  cases p with
  | ps =>
    exact valOf_safe_of_field ctx Ph.ps (some ctx.projectSummary) rfl
      (by simpa [optFieldSafe] using hps)
  | fc =>
    exact valOf_safe_of_field ctx Ph.fc (some ctx.featureContent) rfl
      (by simpa [optFieldSafe] using hfc)
  | ic => exact valOf_safe_of_field ctx Ph.ic ctx.implementationContext rfl hic
  | filec => exact valOf_safe_of_field ctx Ph.filec ctx.fileContent rfl hfile
  | fp => exact valOf_safe_of_field ctx Ph.fp ctx.filePath rfl hfp
  | ifa => exact valOf_safe_of_field ctx Ph.ifa ctx.importantFilesAnalysis rfl hifa

/- Safe boundary characters: in the built-in templates every piece next to
a placeholder starts or ends with a newline or a space, and no token
contains either character. -/

def safeEnds (s : List Char) : Prop :=
  s.getLast? = some '\n' ∨ s.getLast? = some ' '

def safeStarts (s : List Char) : Prop :=
  s.head? = some '\n' ∨ s.head? = some ' '

instance safeEndsDec (s : List Char) : Decidable (safeEnds s) :=
  inferInstanceAs (Decidable (s.getLast? = some '\n' ∨ s.getLast? = some ' '))

instance safeStartsDec (s : List Char) : Decidable (safeStarts s) :=
  inferInstanceAs (Decidable (s.head? = some '\n' ∨ s.head? = some ' '))

theorem safeEnds_append (x y : List Char) (h : safeEnds y) : safeEnds (x ++ y) := by
  rcases h with h | h
  · exact Or.inl (getLast?_append_some x y _ h)
  · exact Or.inr (getLast?_append_some x y _ h)

theorem safeStarts_append (x y : List Char) (h : safeStarts x) : safeStarts (x ++ y) := by
  rcases h with h | h
  · exact Or.inl (head?_append_some x y _ h)
  · exact Or.inr (head?_append_some x y _ h)

theorem occ_left_safe (q : Ph) (a b : List Char) (ha : safeEnds a)
    (h1 : occurs (tokOf q) a = false) (h2 : occurs (tokOf q) b = false) :
    occurs (tokOf q) (a ++ b) = false := by
  rcases ha with h | h
  · exact occurs_append_false_left _ a b '\n' h (tok_no_newline q).1 h1 h2
  · exact occurs_append_false_left _ a b ' ' h (tok_no_newline q).2 h1 h2

theorem occ_right_safe (q : Ph) (a b : List Char) (hb : safeStarts b)
    (h1 : occurs (tokOf q) a = false) (h2 : occurs (tokOf q) b = false) :
    occurs (tokOf q) (a ++ b) = false := by
  rcases hb with h | h
  · exact occurs_append_false_right _ a b '\n' h (tok_no_newline q).1 h1 h2
  · exact occurs_append_false_right _ a b ' ' h (tok_no_newline q).2 h1 h2

theorem replaceFirst_append_safe (q : Ph) (rep a b : List Char)
    (hrep : noSubstPatterns rep = true)
    (hfree : occurs (tokOf q) a = false) (ha : safeEnds a) :
    replaceFirst (tokOf q) rep (a ++ (tokOf q ++ b)) = a ++ (rep ++ b) := by
  have h : replaceFirst (tokOf q) rep (a ++ (tokOf q ++ b)) =
      a ++ (getSubstitution (tokOf q) a b rep ++ b) := by
    rcases ha with h | h
    · exact replaceFirst_append _ rep a b '\n' hfree h (tok_no_newline q).1
    · exact replaceFirst_append _ rep a b ' ' hfree h (tok_no_newline q).2
  rw [h, getSubstitution_id (tokOf q) a b rep hrep]

/-- The shape of all eight built-in templates: four literal pieces with a
placeholder between consecutive pieces. -/
structure Tmpl3 where
  p0 : List Char
  a : Ph
  p1 : List Char
  b : Ph
  p2 : List Char
  c : Ph
  p3 : List Char

def renderT (t : Tmpl3) : List Char :=
  t.p0 ++ (tokOf t.a ++ (t.p1 ++ (tokOf t.b ++ (t.p2 ++ (tokOf t.c ++ t.p3)))))

/-- The slot contents once some placeholders have been substituted. -/
def wordOf (ctx : PromptContext) (done : Bool) (p : Ph) : List Char :=
  if done then valOf ctx p else tokOf p

def renderD (t : Tmpl3) (ctx : PromptContext) (da db dc : Bool) : List Char :=
  t.p0 ++ (wordOf ctx da t.a ++ (t.p1 ++ (wordOf ctx db t.b ++
    (t.p2 ++ (wordOf ctx dc t.c ++ t.p3)))))

/-- Well-formedness of a template: distinct placeholders, no token occurs
inside a literal piece, and pieces around placeholders have safe boundary
characters. -/
def WF (t : Tmpl3) : Prop :=
  t.a ≠ t.b ∧ t.a ≠ t.c ∧ t.b ≠ t.c ∧
  (∀ q ∈ allPhs, occurs (tokOf q) t.p0 = false ∧ occurs (tokOf q) t.p1 = false ∧
    occurs (tokOf q) t.p2 = false ∧ occurs (tokOf q) t.p3 = false) ∧
  safeEnds t.p0 ∧ safeEnds t.p1 ∧ safeEnds t.p2 ∧
  safeStarts t.p1 ∧ safeStarts t.p2 ∧ safeStarts t.p3

instance WFDec (t : Tmpl3) : Decidable (WF t) :=
  inferInstanceAs (Decidable (_ ∧ _))

theorem wordOf_free (ctx : PromptContext) (h : ctxOk ctx = true) (d : Bool)
    (p q : Ph) (hne : q ≠ p) :
    occurs (tokOf q) (wordOf ctx d p) = false := by
  cases d with
  | false => exact tok_not_in_tok q p hne
  | true => exact (valOf_ok ctx h p q).2

theorem occ_sandwich (q : Ph) (p0 p1 p2 p3 wa wb wc : List Char)
    (hE0 : safeEnds p0) (hE1 : safeEnds p1) (hE2 : safeEnds p2)
    (hS1 : safeStarts p1) (hS2 : safeStarts p2) (hS3 : safeStarts p3)
    (h0 : occurs (tokOf q) p0 = false) (h1 : occurs (tokOf q) p1 = false)
    (h2 : occurs (tokOf q) p2 = false) (h3 : occurs (tokOf q) p3 = false)
    (hwa : occurs (tokOf q) wa = false) (hwb : occurs (tokOf q) wb = false)
    (hwc : occurs (tokOf q) wc = false) :
    occurs (tokOf q) (p0 ++ (wa ++ (p1 ++ (wb ++ (p2 ++ (wc ++ p3)))))) = false := by
  apply occ_left_safe q p0 _ hE0 h0
  apply occ_right_safe q wa _ (safeStarts_append p1 _ hS1) hwa
  apply occ_left_safe q p1 _ hE1 h1
  apply occ_right_safe q wb _ (safeStarts_append p2 _ hS2) hwb
  apply occ_left_safe q p2 _ hE2 h2
  exact occ_right_safe q wc p3 hS3 hwc h3

theorem occ_prefix2 (q : Ph) (p0 p1 wa : List Char)
    (hE0 : safeEnds p0) (hS1 : safeStarts p1)
    (h0 : occurs (tokOf q) p0 = false) (h1 : occurs (tokOf q) p1 = false)
    (hwa : occurs (tokOf q) wa = false) :
    occurs (tokOf q) (p0 ++ (wa ++ p1)) = false := by
  apply occ_left_safe q p0 _ hE0 h0
  exact occ_right_safe q wa p1 hS1 hwa h1

theorem occ_prefix4 (q : Ph) (p0 p1 p2 wa wb : List Char)
    (hE0 : safeEnds p0) (hE1 : safeEnds p1)
    (hS1 : safeStarts p1) (hS2 : safeStarts p2)
    (h0 : occurs (tokOf q) p0 = false) (h1 : occurs (tokOf q) p1 = false)
    (h2 : occurs (tokOf q) p2 = false)
    (hwa : occurs (tokOf q) wa = false) (hwb : occurs (tokOf q) wb = false) :
    occurs (tokOf q) (p0 ++ (wa ++ (p1 ++ (wb ++ p2)))) = false := by
  apply occ_left_safe q p0 _ hE0 h0
  apply occ_right_safe q wa _ (safeStarts_append p1 _ hS1) hwa
  apply occ_left_safe q p1 _ hE1 h1
  exact occ_right_safe q wb p2 hS2 hwb h2

/-- One substitution step of buildPrompt on a partially substituted
well-formed template: the placeholder slot matching `q` (if any, and not
substituted yet) is replaced, everything else is untouched. -/
theorem substStep (t : Tmpl3) (hw : WF t) (ctx : PromptContext)
    (hctx : ctxOk ctx = true) (hsafe : ctxSafe ctx = true)
    (q : Ph) (da db dc : Bool)
    (hA : q = t.a → da = false) (hB : q = t.b → db = false)
    (hC : q = t.c → dc = false) :
    replaceFirst (tokOf q) (valOf ctx q) (renderD t ctx da db dc) =
      renderD t ctx (da || decide (q = t.a)) (db || decide (q = t.b))
        (dc || decide (q = t.c)) := by
  obtain ⟨hab, hac, hbc, hpieces, hE0, hE1, hE2, hS1, hS2, hS3⟩ := hw
  obtain ⟨hq0, hq1, hq2, hq3⟩ := hpieces q (ph_mem_allPhs q)
  by_cases ha : q = t.a
  · have hda : da = false := hA ha
    subst hda
    rw [show (false || decide (q = t.a)) = true by simp [ha],
      show (db || decide (q = t.b)) = db by
        rw [decide_eq_false (by rw [ha]; exact hab), Bool.or_false],
      show (dc || decide (q = t.c)) = dc by
        rw [decide_eq_false (by rw [ha]; exact hac), Bool.or_false]]
    rw [show renderD t ctx false db dc =
        t.p0 ++ (tokOf q ++ (t.p1 ++ (wordOf ctx db t.b ++
          (t.p2 ++ (wordOf ctx dc t.c ++ t.p3))))) by rw [ha]; rfl]
    rw [replaceFirst_append_safe q (valOf ctx q) t.p0 _
      (valOf_noSubst ctx hsafe q) hq0 hE0]
    rw [ha]
    rfl
  · by_cases hb : q = t.b
    · have hdb : db = false := hB hb
      subst hdb
      rw [show (da || decide (q = t.a)) = da by
          rw [decide_eq_false ha, Bool.or_false],
        show (false || decide (q = t.b)) = true by simp [hb],
        show (dc || decide (q = t.c)) = dc by
          rw [decide_eq_false (by rw [hb]; exact hbc), Bool.or_false]]
      rw [show renderD t ctx da false dc =
          (t.p0 ++ (wordOf ctx da t.a ++ t.p1)) ++ (tokOf q ++
            (t.p2 ++ (wordOf ctx dc t.c ++ t.p3))) by
        rw [hb]
        simp [renderD, wordOf, List.append_assoc]]
      rw [replaceFirst_append_safe q (valOf ctx q) _ _
        (valOf_noSubst ctx hsafe q)
        (occ_prefix2 q t.p0 t.p1 _ hE0 hS1 hq0 hq1
          (wordOf_free ctx hctx da t.a q ha))
        (safeEnds_append _ _ (safeEnds_append _ _ hE1))]
      rw [hb]
      simp [renderD, wordOf, List.append_assoc]
    · by_cases hc : q = t.c
      · have hdc : dc = false := hC hc
        subst hdc
        rw [show (da || decide (q = t.a)) = da by
            rw [decide_eq_false ha, Bool.or_false],
          show (db || decide (q = t.b)) = db by
            rw [decide_eq_false hb, Bool.or_false],
          show (false || decide (q = t.c)) = true by simp [hc]]
        rw [show renderD t ctx da db false =
            (t.p0 ++ (wordOf ctx da t.a ++ (t.p1 ++ (wordOf ctx db t.b ++
              t.p2)))) ++ (tokOf q ++ t.p3) by
          rw [hc]
          simp [renderD, wordOf, List.append_assoc]]
        rw [replaceFirst_append_safe q (valOf ctx q) _ _
          (valOf_noSubst ctx hsafe q)
          (occ_prefix4 q t.p0 t.p1 t.p2 _ _ hE0 hE1 hS1 hS2 hq0 hq1 hq2
            (wordOf_free ctx hctx da t.a q ha)
            (wordOf_free ctx hctx db t.b q hb))
          (safeEnds_append _ _ (safeEnds_append _ _ (safeEnds_append _ _
            (safeEnds_append _ _ hE2))))]
        rw [hc]
        simp [renderD, wordOf, List.append_assoc]
      · rw [show (da || decide (q = t.a)) = da by
            rw [decide_eq_false ha, Bool.or_false],
          show (db || decide (q = t.b)) = db by
            rw [decide_eq_false hb, Bool.or_false],
          show (dc || decide (q = t.c)) = dc by
            rw [decide_eq_false hc, Bool.or_false]]
        exact replaceFirst_no_occ _ _ _
          (occ_sandwich q t.p0 t.p1 t.p2 t.p3 _ _ _ hE0 hE1 hE2 hS1 hS2 hS3
            hq0 hq1 hq2 hq3
            (wordOf_free ctx hctx da t.a q ha)
            (wordOf_free ctx hctx db t.b q hb)
            (wordOf_free ctx hctx dc t.c q hc))

theorem subOrder_nodup : subOrder.Nodup := by decide

theorem ph_mem_subOrder (p : Ph) : p ∈ subOrder := by
  cases p <;> decide

/-- Running the substitutions for a list of placeholders (each at most
once), starting from flags that record which slots were already handled. -/
theorem subList_renderD (t : Tmpl3) (hw : WF t) (ctx : PromptContext)
    (hctx : ctxOk ctx = true) (hsafe : ctxSafe ctx = true) :
    ∀ phs : List Ph, phs.Nodup →
      subList ctx phs (renderD t ctx (decide (t.a ∉ phs))
        (decide (t.b ∉ phs)) (decide (t.c ∉ phs))) =
      renderD t ctx true true true := by
  intro phs
  induction phs with
  | nil =>
    intro _
    rfl
  | cons q rest ih =>
    intro hnd
    have hnd2 := List.nodup_cons.mp hnd
    show subList ctx rest (replaceFirst (tokOf q) (valOf ctx q)
      (renderD t ctx (decide (t.a ∉ q :: rest)) (decide (t.b ∉ q :: rest))
        (decide (t.c ∉ q :: rest)))) = renderD t ctx true true true
    rw [substStep t hw ctx hctx hsafe q _ _ _
      (fun h => by rw [← h]; simp)
      (fun h => by rw [← h]; simp)
      (fun h => by rw [← h]; simp)]
    have hflag : ∀ p : Ph, (decide (p ∉ q :: rest) || decide (q = p)) =
        decide (p ∉ rest) := by
      intro p
      by_cases hqp : q = p
      · rw [← hqp]
        rw [decide_eq_true (by rfl : q = q)]
        rw [Bool.or_true]
        rw [decide_eq_true (by simpa using hnd2.1 : q ∉ rest)]
      · rw [decide_eq_false hqp, Bool.or_false]
        exact decide_eq_decide.mpr (by simp [List.mem_cons, Ne.symm hqp])
    rw [hflag t.a, hflag t.b, hflag t.c]
    exact ih hnd2.2

/-- Main lemma for C7: building a prompt from a well-formed three-slot
template with admissible context values leaves no placeholder token in the
output. -/
theorem buildPrompt_tokens_gone (t : Tmpl3) (hw : WF t) (ctx : PromptContext)
    (hctx : ctxOk ctx = true) (hsafe : ctxSafe ctx = true) (q : Ph) :
    occurs (tokOf q) (buildPrompt (renderT t) ctx) = false := by
  rw [buildPrompt_eq_subList]
  have hstart : renderT t = renderD t ctx (decide (t.a ∉ subOrder))
      (decide (t.b ∉ subOrder)) (decide (t.c ∉ subOrder)) := by
    rw [decide_eq_false (not_not_intro (ph_mem_subOrder t.a)),
      decide_eq_false (not_not_intro (ph_mem_subOrder t.b)),
      decide_eq_false (not_not_intro (ph_mem_subOrder t.c))]
    rfl
  rw [hstart, subList_renderD t hw ctx hctx hsafe subOrder subOrder_nodup]
  cases hocc : occurs (tokOf q) (jsTrim (renderD t ctx true true true)) with
  | false => rfl
  | true =>
    exfalso
    have h2 := occurs_of_jsTrim _ _ hocc
    have hw2 := hw
    obtain ⟨hab, hac, hbc, hpieces, hE0, hE1, hE2, hS1, hS2, hS3⟩ := hw2
    obtain ⟨hq0, hq1, hq2, hq3⟩ := hpieces q (ph_mem_allPhs q)
    have h3 : occurs (tokOf q) (renderD t ctx true true true) = false :=
      occ_sandwich q t.p0 t.p1 t.p2 t.p3 _ _ _ hE0 hE1 hE2 hS1 hS2 hS3
        hq0 hq1 hq2 hq3
        ((valOf_ok ctx hctx t.a q).2)
        ((valOf_ok ctx hctx t.b q).2)
        ((valOf_ok ctx hctx t.c q).2)
    rw [h3] at h2
    exact Bool.false_ne_true h2

/- Occurrence counting through buildPrompt, for arbitrary template strings:
each of the six replacement passes removes at most the one occurrence of its
own token and none of any other token, and trimming removes none. -/

theorem countOcc_replaceFirst_other (p q : Ph) (hpq : p ≠ q)
    (rep s : List Char) :
    countOcc (tokOf p) s ≤
      countOcc (tokOf p) (replaceFirst (tokOf q) rep s) := by
  cases hocc : occurs (tokOf q) s with
  | false => rw [replaceFirst_no_occ _ _ _ hocc]
  | true =>
    obtain ⟨u, v, hs, -, hres⟩ :=
      replaceFirst_decomp (tokOf q) rep s (tok_ne_nil q) hocc
    rw [hres]
    conv_lhs => rw [hs]
    have h1 := countOcc_slot_le p q u v
    rw [countOcc_tok_other p q hpq] at h1
    have h2 := countOcc_append_ge (tokOf p) (tok_ne_nil p) u
      (getSubstitution (tokOf q) u v rep ++ v)
    have h3 := countOcc_append_ge (tokOf p) (tok_ne_nil p)
      (getSubstitution (tokOf q) u v rep) v
    omega

theorem countOcc_replaceFirst_self (p : Ph) (rep s : List Char) :
    countOcc (tokOf p) s ≤
      countOcc (tokOf p) (replaceFirst (tokOf p) rep s) + 1 := by
  cases hocc : occurs (tokOf p) s with
  | false => rw [replaceFirst_no_occ _ _ _ hocc]; omega
  | true =>
    obtain ⟨u, v, hs, -, hres⟩ :=
      replaceFirst_decomp (tokOf p) rep s (tok_ne_nil p) hocc
    rw [hres]
    conv_lhs => rw [hs]
    have h1 := countOcc_slot_le p p u v
    rw [countOcc_tok_self p] at h1
    have h2 := countOcc_append_ge (tokOf p) (tok_ne_nil p) u
      (getSubstitution (tokOf p) u v rep ++ v)
    have h3 := countOcc_append_ge (tokOf p) (tok_ne_nil p)
      (getSubstitution (tokOf p) u v rep) v
    omega

theorem occurs_replaceFirst_other (p q : Ph) (hpq : p ≠ q) (rep s : List Char)
    (h : occurs (tokOf p) s = true) :
    occurs (tokOf p) (replaceFirst (tokOf q) rep s) = true := by
  have h1 : 0 < countOcc (tokOf p) s := (countOcc_pos_iff _ _).mpr h
  have h2 := countOcc_replaceFirst_other p q hpq rep s
  exact (countOcc_pos_iff _ _).mp (Nat.lt_of_lt_of_le h1 h2)

theorem countOcc_ws_zero (p : Ph) (a : List Char)
    (ha : ∀ c ∈ a, jsWhitespace c = true) :
    countOcc (tokOf p) a = 0 := by
  apply countOcc_eq_zero
  cases hocc : occurs (tokOf p) a with
  | false => rfl
  | true =>
    exfalso
    rcases (occurs_iff _ _).mp hocc with ⟨u, v, hv⟩
    have hhead := tok_head_open p
    cases htok : tokOf p with
    | nil => rw [htok] at hhead; exact Option.noConfusion hhead
    | cons c0 t0 =>
      rw [htok] at hhead
      have hc0 : c0 = Char.ofNat 123 := by simpa using hhead
      have hmem : c0 ∈ a := by
        rw [hv, htok]
        simp
      have hws := ha c0 hmem
      rw [hc0] at hws
      exact absurd hws (by decide)

theorem noStraddle_ws_left (p : Ph) (a b : List Char)
    (ha : ∀ c ∈ a, jsWhitespace c = true) :
    ∀ x y, tokOf p = x ++ y → x ≠ [] → y ≠ [] →
      (∃ a0, a = a0 ++ x) → (∃ b0, b = y ++ b0) → False := by
  rintro x y hxy hx hy ⟨a0, ha0⟩ -
  cases x with
  | nil => exact hx rfl
  | cons c x2 =>
    have hca : c ∈ a := by rw [ha0]; simp
    have hcp : jsWhitespace c = false := by
      apply tok_no_ws p
      rw [hxy]
      simp
    rw [ha c hca] at hcp
    exact Bool.noConfusion hcp

theorem noStraddle_ws_right (p : Ph) (a b : List Char)
    (hb : ∀ c ∈ b, jsWhitespace c = true) :
    ∀ x y, tokOf p = x ++ y → x ≠ [] → y ≠ [] →
      (∃ a0, a = a0 ++ x) → (∃ b0, b = y ++ b0) → False := by
  rintro x y hxy hx hy - ⟨b0, hb0⟩
  cases y with
  | nil => exact hy rfl
  | cons c y2 =>
    have hcb : c ∈ b := by rw [hb0]; simp
    have hcp : jsWhitespace c = false := by
      apply tok_no_ws p
      rw [hxy]
      simp
    rw [hb c hcb] at hcp
    exact Bool.noConfusion hcp

/-- Trimming removes no token occurrence: tokens hold no whitespace, so
every occurrence lies inside the trimmed core. -/
theorem countOcc_jsTrim_ge (p : Ph) (x : List Char) :
    countOcc (tokOf p) x ≤ countOcc (tokOf p) (jsTrim x) := by
  obtain ⟨a, b, hx, hwa, hwb⟩ := jsTrim_decomp x
  conv_lhs => rw [hx]
  have h1 := countOcc_append_le (tokOf p) a (jsTrim x ++ b)
    (noStraddle_ws_left p a _ hwa)
  have h2 := countOcc_append_le (tokOf p) (jsTrim x) b
    (noStraddle_ws_right p _ b hwb)
  have h3 := countOcc_ws_zero p a hwa
  have h4 := countOcc_ws_zero p b hwb
  omega

theorem occurs_jsTrim_keep (p : Ph) (x : List Char)
    (h : occurs (tokOf p) x = true) :
    occurs (tokOf p) (jsTrim x) = true := by
  have h1 : 0 < countOcc (tokOf p) x := (countOcc_pos_iff _ _).mpr h
  exact (countOcc_pos_iff _ _).mp
    (Nat.lt_of_lt_of_le h1 (countOcc_jsTrim_ge p x))

/-- Running the substitution passes for a duplicate-free list of
placeholders removes at most one occurrence of any given token. -/
theorem countOcc_subList_le (ctx : PromptContext) (p : Ph) :
    ∀ (L : List Ph) (s : List Char), L.Nodup →
      countOcc (tokOf p) s ≤
        countOcc (tokOf p) (subList ctx L s) + (if p ∈ L then 1 else 0) := by
  intro L
  induction L with
  | nil =>
    intro s _
    simp [subList]
  | cons q rest ih =>
    intro s hnd
    have hnd2 := List.nodup_cons.mp hnd
    rw [show subList ctx (q :: rest) s =
      subList ctx rest (replaceFirst (tokOf q) (valOf ctx q) s) from rfl]
    by_cases hpq : p = q
    · subst hpq
      have h1 := countOcc_replaceFirst_self p (valOf ctx p) s
      have h2 := ih (replaceFirst (tokOf p) (valOf ctx p) s) hnd2.2
      rw [if_neg hnd2.1] at h2
      rw [if_pos (by simp)]
      omega
    · have h1 := countOcc_replaceFirst_other p q hpq (valOf ctx q) s
      have h2 := ih (replaceFirst (tokOf q) (valOf ctx q) s) hnd2.2
      rw [show (if p ∈ q :: rest then 1 else 0) =
        (if p ∈ rest then 1 else 0) by simp [List.mem_cons, hpq]]
      omega

theorem occurs_subList_other (ctx : PromptContext) (p : Ph) :
    ∀ (L : List Ph) (s : List Char), p ∉ L → occurs (tokOf p) s = true →
      occurs (tokOf p) (subList ctx L s) = true := by
  intro L
  induction L with
  | nil => intro s _ h; exact h
  | cons q rest ih =>
    intro s hnotin h
    have hpq : p ≠ q := fun he => hnotin (by rw [he]; simp)
    exact ih _ (fun hm => hnotin (List.mem_cons_of_mem q hm))
      (occurs_replaceFirst_other p q hpq (valOf ctx q) s h)

/-- buildPrompt removes at most one occurrence of each token, on every
template string and every context. -/
theorem countOcc_buildPrompt (s : List Char) (ctx : PromptContext) (p : Ph) :
    countOcc (tokOf p) s ≤ countOcc (tokOf p) (buildPrompt s ctx) + 1 := by
  rw [buildPrompt_eq_subList]
  have h1 := countOcc_subList_le ctx p subOrder s subOrder_nodup
  rw [if_pos (ph_mem_subOrder p)] at h1
  have h2 := countOcc_jsTrim_ge p (subList ctx subOrder s)
  omega

/- The eight templates of the PROMPT_TEMPLATES table: each is given by
   its literal pieces (verbatim source text) with the three placeholder
   tokens between them, assembled by renderT. -/

def qccP0 : List Char := "You are analyzing a software project to generate comprehensive questions for feature specification.\n\nProject Context:\n".data

def qccP1 : List Char := "\n\nCurrent Feature File:\n".data

def qccP2 : List Char := "\n\nImportant Files Analysis:\n".data

def qccP3 : List Char := "\n\nGenerate 10-15 thoughtful questions that will help gather complete requirements for this feature. Focus on:\n- Functional requirements and core behavior\n- Non-functional requirements (performance, security, accessibility)\n- Edge cases and error handling scenarios\n- Integration points with existing systems\n- User experience and interface considerations\n- Data requirements and validation rules\n- Testing and quality assurance needs\n\nFormat your response as a numbered list of questions. Each question should be specific, actionable, and help clarify requirements that would be essential for implementation.\n\nExample format:\n1. What specific data should be validated when a user submits the form?\n2. How should the system handle concurrent users accessing the same resource?\n3. What accessibility standards should this feature comply with?\n\nPlease generate questions that are relevant to this specific feature and project context.".data

def qccT : Tmpl3 := ⟨qccP0, Ph.ps, qccP1, Ph.fc, qccP2, Ph.ifa, qccP3⟩

def QUESTIONNAIRE_CLAUDE_CODE : List Char := renderT qccT

theorem qcc_renderT : QUESTIONNAIRE_CLAUDE_CODE = renderT qccT := rfl

def qgcP0 : List Char := "Analyze this software project and generate detailed specification questions for the given feature.\n\nProject Information:\n".data

def qgcP1 : List Char := "\n\nFeature to Analyze:\n".data

def qgcP2 : List Char := "\n\nImportant Files Analysis:\n".data

def qgcP3 : List Char := "\n\nCreate 10-15 comprehensive questions that will help gather complete requirements for implementing this feature. Consider:\n- Core functionality and user workflows\n- Technical constraints and dependencies\n- Error scenarios and edge cases\n- Performance and scalability requirements\n- Security and data protection needs\n- User interface and experience requirements\n- Integration requirements with existing systems\n\nProvide questions as a numbered list that will help developers understand exactly what needs to be built and how it should behave.".data

def qgcT : Tmpl3 := ⟨qgcP0, Ph.ps, qgcP1, Ph.fc, qgcP2, Ph.ifa, qgcP3⟩

def QUESTIONNAIRE_GEMINI_CLI : List Char := renderT qgcT

theorem qgc_renderT : QUESTIONNAIRE_GEMINI_CLI = renderT qgcT := rfl

def iccP0 : List Char := "You are creating an implementation plan for a software feature based on project analysis and requirements.\n\nProject Context:\n".data

def iccP1 : List Char := "\n\nFeature Specification:\n".data

def iccP2 : List Char := "\n\nImportant Files Analysis:\n".data

def iccP3 : List Char := "\n\nCreate a detailed implementation plan that includes:\n\n## 1. Technical Approach\n- Architecture and design patterns to use\n- Key components and their responsibilities\n- Integration points with existing code\n\n## 2. Implementation Steps\n- Ordered list of development tasks\n- Dependencies between tasks\n- Estimated complexity for each step\n\n## 3. Files to Create/Modify\n- Specific file paths and their purposes\n- New components or modules needed\n- Existing files that need updates\n\n## 4. Key Considerations\n- Potential challenges and solutions\n- Performance implications\n- Security considerations\n- Testing strategy\n\n## 5. Acceptance Criteria\n- Testable conditions for completion\n- Success metrics\n- Quality gates\n\nStructure your response to provide actionable guidance for a developer implementing this feature in the given project context.".data

def iccT : Tmpl3 := ⟨iccP0, Ph.ps, iccP1, Ph.fc, iccP2, Ph.ifa, iccP3⟩

def IMPLEMENTATION_CLAUDE_CODE : List Char := renderT iccT

theorem icc_renderT : IMPLEMENTATION_CLAUDE_CODE = renderT iccT := rfl

def igcP0 : List Char := "Create a comprehensive implementation plan for the specified feature in this software project.\n\nProject Details:\n".data

def igcP1 : List Char := "\n\nFeature Requirements:\n".data

def igcP2 : List Char := "\n\nImportant Files Analysis:\n".data

def igcP3 : List Char := "\n\nDevelop a detailed plan covering:\n- Technical approach and architecture\n- Step-by-step implementation tasks\n- Required files and components\n- Integration considerations\n- Testing strategy\n- Potential challenges and solutions\n\nProvide specific, actionable guidance that a developer can follow to implement this feature successfully.".data

def igcT : Tmpl3 := ⟨igcP0, Ph.ps, igcP1, Ph.fc, igcP2, Ph.ifa, igcP3⟩

def IMPLEMENTATION_GEMINI_CLI : List Char := renderT igcT

theorem igc_renderT : IMPLEMENTATION_GEMINI_CLI = renderT igcT := rfl

def cccP0 : List Char := "Generate production-ready code for the specified feature based on the project context and requirements.\n\nProject Context:\n".data

def cccP1 : List Char := "\n\nFeature Specification:\n".data

def cccP2 : List Char := "\n\nImplementation Requirements:\n".data

def cccP3 : List Char := "\n\nGenerate code that:\n- Follows the project\x27s existing patterns and conventions\n- Includes proper error handling and validation\n- Has appropriate TypeScript types (if applicable)\n- Includes relevant unit tests\n- Follows security best practices\n- Is well-documented with comments\n\nProvide the code for each file that needs to be created or modified, with clear file paths and explanations of the implementation choices.".data

def cccT : Tmpl3 := ⟨cccP0, Ph.ps, cccP1, Ph.fc, cccP2, Ph.ic, cccP3⟩

def CODE_GENERATION_CLAUDE_CODE : List Char := renderT cccT

theorem ccc_renderT : CODE_GENERATION_CLAUDE_CODE = renderT cccT := rfl

def cgcP0 : List Char := "Generate code implementation for the feature based on the project requirements and context.\n\nProject Information:\n".data

def cgcP1 : List Char := "\n\nFeature Details:\n".data

def cgcP2 : List Char := "\n\nImplementation Context:\n".data

def cgcP3 : List Char := "\n\nCreate production-quality code that integrates well with the existing project structure, follows best practices, and includes proper error handling and documentation.".data

def cgcT : Tmpl3 := ⟨cgcP0, Ph.ps, cgcP1, Ph.fc, cgcP2, Ph.ic, cgcP3⟩

def CODE_GENERATION_GEMINI_CLI : List Char := renderT cgcT

theorem cgc_renderT : CODE_GENERATION_GEMINI_CLI = renderT cgcT := rfl

def accP0 : List Char := "Analyze the provided file in the context of the software project to understand its role and suggest improvements.\n\nProject Context:\n".data

def accP1 : List Char := "\n\nFile Content:\n".data

def accP2 : List Char := "\n\nFile Path:\n".data

def accP3 : List Char := "\n\nProvide analysis covering:\n- Purpose and functionality of this file\n- How it fits into the overall project architecture\n- Code quality and adherence to best practices\n- Potential improvements or refactoring opportunities\n- Security considerations\n- Performance implications\n- Dependencies and coupling with other components\n\nInclude specific, actionable recommendations for enhancing this file.".data

def accT : Tmpl3 := ⟨accP0, Ph.ps, accP1, Ph.filec, accP2, Ph.fp, accP3⟩

def FILE_ANALYSIS_CLAUDE_CODE : List Char := renderT accT

theorem acc_renderT : FILE_ANALYSIS_CLAUDE_CODE = renderT accT := rfl

def agcP0 : List Char := "Analyze the given file within the project context and provide insights about its functionality and potential improvements.\n\nProject Details:\n".data

def agcP1 : List Char := "\n\nFile to Analyze:\nFile Path: ".data

def agcP2 : List Char := "\n".data

def agcP3 : List Char := "\n\nProvide analysis of the file\x27s purpose, quality, and suggestions for improvement within the project context.".data

def agcT : Tmpl3 := ⟨agcP0, Ph.ps, agcP1, Ph.fp, agcP2, Ph.filec, agcP3⟩

def FILE_ANALYSIS_GEMINI_CLI : List Char := renderT agcT

theorem agc_renderT : FILE_ANALYSIS_GEMINI_CLI = renderT agcT := rfl

set_option maxRecDepth 8000 in
theorem qcc_wf : WF qccT := by decide

set_option maxRecDepth 8000 in
theorem qgc_wf : WF qgcT := by decide

set_option maxRecDepth 8000 in
theorem icc_wf : WF iccT := by decide

set_option maxRecDepth 8000 in
theorem igc_wf : WF igcT := by decide

set_option maxRecDepth 8000 in
theorem ccc_wf : WF cccT := by decide

set_option maxRecDepth 8000 in
theorem cgc_wf : WF cgcT := by decide

set_option maxRecDepth 8000 in
theorem acc_wf : WF accT := by decide

set_option maxRecDepth 8000 in
theorem agc_wf : WF agcT := by decide

/-- The operation type of PromptBuilder.getTemplate. -/
inductive Operation
  | questionnaire
  | implementation
  | codegen
  | analysis
deriving DecidableEq

/-- The agent union type of PromptBuilder.getTemplate. -/
inductive AgentName
  | claudeCode
  | geminiCli
deriving DecidableEq

/-- PromptBuilder.getTemplate: the fixed (operation x agent) table. -/
def getTemplate : Operation → AgentName → List Char
  | .questionnaire, .claudeCode => QUESTIONNAIRE_CLAUDE_CODE
  | .questionnaire, .geminiCli => QUESTIONNAIRE_GEMINI_CLI
  | .implementation, .claudeCode => IMPLEMENTATION_CLAUDE_CODE
  | .implementation, .geminiCli => IMPLEMENTATION_GEMINI_CLI
  | .codegen, .claudeCode => CODE_GENERATION_CLAUDE_CODE
  | .codegen, .geminiCli => CODE_GENERATION_GEMINI_CLI
  | .analysis, .claudeCode => FILE_ANALYSIS_CLAUDE_CODE
  | .analysis, .geminiCli => FILE_ANALYSIS_GEMINI_CLI

/-- C7 (amended): for every built-in template and every context whose
supplied values are non-empty, contain no placeholder token, and contain
none of the GetSubstitution dollar patterns, the built prompt contains none
of the six placeholder tokens; absent optional fields are replaced by the
fallback texts, never left as a raw token. -/
theorem buildPrompt_substitution_complete (op : Operation) (ag : AgentName)
    (ctx : PromptContext) (hctx : ctxOk ctx = true)
    (hsafe : ctxSafe ctx = true) (q : Ph) :
    occurs (tokOf q) (buildPrompt (getTemplate op ag) ctx) = false := by
  cases op <;> cases ag
  · rw [show getTemplate .questionnaire .claudeCode = renderT qccT from qcc_renderT]
    exact buildPrompt_tokens_gone qccT qcc_wf ctx hctx hsafe q
  · rw [show getTemplate .questionnaire .geminiCli = renderT qgcT from qgc_renderT]
    exact buildPrompt_tokens_gone qgcT qgc_wf ctx hctx hsafe q
  · rw [show getTemplate .implementation .claudeCode = renderT iccT from icc_renderT]
    exact buildPrompt_tokens_gone iccT icc_wf ctx hctx hsafe q
  · rw [show getTemplate .implementation .geminiCli = renderT igcT from igc_renderT]
    exact buildPrompt_tokens_gone igcT igc_wf ctx hctx hsafe q
  · rw [show getTemplate .codegen .claudeCode = renderT cccT from ccc_renderT]
    exact buildPrompt_tokens_gone cccT ccc_wf ctx hctx hsafe q
  · rw [show getTemplate .codegen .geminiCli = renderT cgcT from cgc_renderT]
    exact buildPrompt_tokens_gone cgcT cgc_wf ctx hctx hsafe q
  · rw [show getTemplate .analysis .claudeCode = renderT accT from acc_renderT]
    exact buildPrompt_tokens_gone accT acc_wf ctx hctx hsafe q
  · rw [show getTemplate .analysis .geminiCli = renderT agcT from agc_renderT]
    exact buildPrompt_tokens_gone agcT agc_wf ctx hctx hsafe q

/-- A concrete admissible context for the substitution witness. -/
def demoPromptContext : PromptContext :=
  { projectSummary := "A TypeScript VS Code extension".data,
    featureContent := "Add a login feature".data,
    implementationContext := none, fileContent := none,
    filePath := none, importantFilesAnalysis := none }

/-- Witness: the questionnaire template for claude-code, built with the
demo context, contains no projectSummary token. -/
theorem buildPrompt_substitution_complete_witness :
    ctxOk demoPromptContext = true ∧ ctxSafe demoPromptContext = true ∧
    occurs (tokOf Ph.ps) (buildPrompt
      (getTemplate Operation.questionnaire AgentName.claudeCode)
      demoPromptContext) = false :=
  ⟨by decide, by decide, buildPrompt_substitution_complete
    Operation.questionnaire AgentName.claudeCode demoPromptContext
    (by decide) (by decide) Ph.ps⟩

/-- A context meeting the original claim hypotheses (values non-empty and
free of placeholder tokens) whose project summary is the bare
dollar-ampersand replacement pattern. -/
def dollarContext : PromptContext :=
  { projectSummary := ['$', '&'],
    featureContent := "Add a login feature".data,
    implementationContext := none, fileContent := none,
    filePath := none, importantFilesAnalysis := none }

set_option maxRecDepth 8000 in
/-- Counterexample to the original C7 claim: the dollar-ampersand project
summary is non-empty and token-free, yet GetSubstitution re-inserts the
matched projectSummary token, which then survives to the built prompt. -/
theorem buildPrompt_substitution_claim_cex :
    ctxOk dollarContext = true ∧
    occurs (tokOf Ph.ps)
      (buildPrompt (getTemplate Operation.questionnaire AgentName.claudeCode)
        dollarContext) = true := by
  refine ⟨by decide, ?_⟩
  rw [show getTemplate Operation.questionnaire AgentName.claudeCode =
    renderT qccT from qcc_renderT]
  rw [buildPrompt_eq_subList]
  rw [show subList dollarContext subOrder (renderT qccT) =
    subList dollarContext [Ph.fc, Ph.ic, Ph.filec, Ph.fp, Ph.ifa]
      (replaceFirst (tokOf Ph.ps) (valOf dollarContext Ph.ps)
        (renderT qccT)) from rfl]
  have hval : valOf dollarContext Ph.ps = ['$', '&'] := by decide
  have h1 : replaceFirst (tokOf Ph.ps) ['$', '&'] (renderT qccT) =
      renderT qccT := by
    have h2 := replaceFirst_append (tokOf Ph.ps) ['$', '&'] qccP0
      (qccP1 ++ (tokOf Ph.fc ++ (qccP2 ++ (tokOf Ph.ifa ++ qccP3)))) '\n'
      (by decide) (by decide) (by decide)
    rw [show renderT qccT = qccP0 ++ (tokOf Ph.ps ++
      (qccP1 ++ (tokOf Ph.fc ++ (qccP2 ++ (tokOf Ph.ifa ++ qccP3)))))
      from rfl]
    rw [h2, getSubstitution_amp, List.append_nil]
  rw [hval, h1]
  have hocc : occurs (tokOf Ph.ps) (renderT qccT) = true := by
    apply (occurs_iff _ _).mpr
    exact ⟨qccP0, qccP1 ++ (tokOf Ph.fc ++ (qccP2 ++ (tokOf Ph.ifa ++ qccP3))),
      by simp [renderT, qccT]⟩
  exact occurs_jsTrim_keep Ph.ps _
    (occurs_subList_other dollarContext Ph.ps
      [Ph.fc, Ph.ic, Ph.filec, Ph.fp, Ph.ifa] (renderT qccT)
      (by decide) hocc)

set_option maxRecDepth 8000 in
/-- C10: buildPrompt substitutes only the first occurrence of each
placeholder.  For every template string, every context and every supported
placeholder, at most one occurrence of the token is removed, so in a
template where a token occurs more than once the later occurrences remain
in the output; on a concrete template with two projectSummary tokens the
second stays verbatim; and every built-in template contains each
placeholder token at most once, so substitution completeness holds only for
the built-in table. -/
theorem buildPrompt_first_occurrence_only :
    (∀ (s : List Char) (ctx : PromptContext) (p : Ph),
      countOcc (tokOf p) s ≤ countOcc (tokOf p) (buildPrompt s ctx) + 1) ∧
    (∀ (s : List Char) (ctx : PromptContext) (p : Ph),
      2 ≤ countOcc (tokOf p) s →
        occurs (tokOf p) (buildPrompt s ctx) = true) ∧
    buildPrompt "{projectSummary} {projectSummary}".data
      { projectSummary := "A".data, featureContent := "B".data,
        implementationContext := none, fileContent := none,
        filePath := none, importantFilesAnalysis := none } =
      "A {projectSummary}".data ∧
    (∀ op : Operation, ∀ ag : AgentName, ∀ q ∈ allPhs,
      countOcc (tokOf q) (getTemplate op ag) ≤ 1) := by
  refine ⟨fun s ctx p => countOcc_buildPrompt s ctx p, ?_, by decide, ?_⟩
  · intro s ctx p h
    have h1 := countOcc_buildPrompt s ctx p
    have h2 : 0 < countOcc (tokOf p) (buildPrompt s ctx) := by omega
    exact (countOcc_pos_iff _ _).mp h2
  · intro op ag q hq
    simp only [allPhs, List.mem_cons, List.not_mem_nil, or_false] at hq
    rcases hq with rfl | rfl | rfl | rfl | rfl | rfl <;> cases op <;>
      cases ag <;> decide

/-- Witness: on the double-projectSummary template the token survives to
the output, and the claude-code questionnaire template holds the
projectSummary token at most once. -/
theorem buildPrompt_first_occurrence_only_witness :
    2 ≤ countOcc (tokOf Ph.ps) "{projectSummary} {projectSummary}".data ∧
    occurs (tokOf Ph.ps)
      (buildPrompt "{projectSummary} {projectSummary}".data
        demoPromptContext) = true ∧
    countOcc (tokOf Ph.ps) (getTemplate Operation.questionnaire
      AgentName.claudeCode) ≤ 1 :=
  ⟨by decide,
   buildPrompt_first_occurrence_only.2.1
     "{projectSummary} {projectSummary}".data demoPromptContext Ph.ps
     (by decide),
   buildPrompt_first_occurrence_only.2.2.2 Operation.questionnaire
     AgentName.claudeCode Ph.ps (by decide)⟩
